import Mathlib

/-!
Verification of the arbolta gate-level simulator core.

This file gives a shallow embedding, in Lean, of the simulation runtime of the
arbolta crate (`src/crates/arbolta/src`): the `Bit`/`BitVec` conversions, the
`Signal` toggle accounting, standard `Cell` evaluation, `Port` marshalling, the
recursive `HardwareModule` tree with its evaluation and statistics operations,
and the `Design` clocked-evaluation facade.  Machine integers of a primitive
type `T` are modelled by an `IntTy` record (bit width plus signedness), with
values carried as mathematical integers and bit patterns as naturals reduced
modulo `2 ^ width`.  A Rust panic (slice index out of range, integer shift by
at least the bit width, `unwrap` of `None`, `chunks(0)`) is modelled as
`Option.none`; recoverable Rust `Result` errors are modelled with `Except`.
-/

namespace Arbolta

/-- Primitive signal value (`src/bit.rs`, `enum Bit`). -/
inductive Bit where
  | zero
  | one
deriving DecidableEq

/-- The integer value of a single bit (`Bit::to_int`). -/
def Bit.toNat : Bit → Nat
  | .zero => 0
  | .one => 1

/-- Bit negation (`impl Not for Bit`). -/
def Bit.not : Bit → Bit
  | .zero => .one
  | .one => .zero

/-- Bit conjunction (`impl BitAnd for Bit`). -/
def Bit.and : Bit → Bit → Bit
  | .one, .one => .one
  | _, _ => .zero

/-- Bit disjunction (`impl BitOr for Bit`). -/
def Bit.or : Bit → Bit → Bit
  | .zero, .zero => .zero
  | _, _ => .one

/-- Bit exclusive or (`impl BitXor for Bit`). -/
def Bit.xor : Bit → Bit → Bit
  | .zero, .one => .one
  | .one, .zero => .one
  | _, _ => .zero

/-- Rendering of a bit as a character (`impl From<Bit> for char`). -/
def Bit.toChar : Bit → Char
  | .zero => '0'
  | .one => '1'

/-- A primitive machine integer type `T`, abstracted by its bit width and its
signedness (in the source, a type implementing `num_traits::PrimInt`; the
`T::min_value() != T::zero()` test used by `bits_to_int` is exactly the
`signed` flag). -/
structure IntTy where
  width : Nat
  signed : Bool
deriving DecidableEq

/-- The set of mathematical integers representable in type `T`. -/
def IntTy.inRange (T : IntTy) (v : Int) : Prop :=
  if T.signed then
    -((2 ^ (T.width - 1) : Nat) : Int) ≤ v ∧ v < ((2 ^ (T.width - 1) : Nat) : Int)
  else
    0 ≤ v ∧ v < ((2 ^ T.width : Nat) : Int)

/-- The `width`-bit two's-complement pattern of the integer `v`. -/
def patOfInt (width : Nat) (v : Int) : Nat :=
  (v % ((2 ^ width : Nat) : Int)).toNat

/-- Interpretation of a `T.width`-bit pattern as a value of type `T`:
if `T` is signed and the sign bit is set the value is negative. -/
def IntTy.toValue (T : IntTy) (pat : Nat) : Int :=
  if T.signed ∧ pat.testBit (T.width - 1) then
    (pat : Int) - ((2 ^ T.width : Nat) : Int)
  else
    (pat : Int)

/-- `BitVec::int_to_bits_sized` (src/bit.rs): for `n in 0..size` push
`Bit::from_int((val >> n) & 1)`.  The shift `val >> n` is the machine
arithmetic shift; on an integer in range it agrees with the mathematical
floor shift `v >>> n`, and `& 1` is `% 2` with a non-negative remainder.
`Bit::from_int` never fails here since the masked value is 0 or 1, but the
shift itself panics when `n` reaches the bit width of `T`; that panic is
modelled by `none` (it occurs exactly when `size > T.width`). -/
def int_to_bits_sized (T : IntTy) (v : Int) (size : Nat) : Option (List Bit) :=
  if size ≤ T.width then
    some ((List.range size).map fun (n : Nat) => if (v >>> n) % 2 = 1 then Bit.one else Bit.zero)
  else
    none

/-- The accumulation loop shared by both branches of `BitVec::bits_to_int`:
for each listed term `t` (a 0/1 value of type `T`) at position `i`, perform
`acc ^= t << i`.  The shift wraps to the bit width of `T` (the accumulator is
a `T` pattern), and a shift amount `i ≥ width` panics (`none`). -/
def xorShiftAcc (width : Nat) : List Nat → Nat → Nat → Option Nat
  | [], _, acc => some acc
  | t :: rest, i, acc =>
    if i < width then
      xorShiftAcc width rest (i + 1) (acc ^^^ ((t <<< i) % 2 ^ width))
    else
      none

/-- `BitVec::bits_to_int` (src/bit.rs, lines 258-278).  `bit_ints.last().unwrap()`
panics on an empty slice (`none`).  If the top bit is one and `T` is signed,
the accumulator starts from the all-ones pattern `!T::zero()` and each step
xors in `(bit[i] XOR 1) << i`; otherwise it starts from zero and xors in
`bit[i] << i`.  The final `T` pattern is interpreted as a value of `T`. -/
def bits_to_int (T : IntTy) (bits : List Bit) : Option Int :=
  match bits.getLast? with
  | none => none
  | some top =>
    if top = Bit.one ∧ T.signed then
      (xorShiftAcc T.width (bits.map fun b => b.toNat ^^^ 1) 0 (2 ^ T.width - 1)).map T.toValue
    else
      (xorShiftAcc T.width (bits.map Bit.toNat) 0 0).map T.toValue

/-- Structure for storing a vector of bits, index 0 = least significant
(`src/bit.rs`, `struct BitVec`). -/
structure BitVec where
  bits : List Bit
deriving DecidableEq

/-- `BitVec::from_int_sized`. -/
def BitVec.from_int_sized (T : IntTy) (v : Int) (size : Nat) : Option BitVec :=
  (int_to_bits_sized T v size).map BitVec.mk

/-- `BitVec::to_int`. -/
def BitVec.to_int (T : IntTy) (bv : BitVec) : Option Int :=
  bits_to_int T bv.bits

/-! ### Characterization of the accumulation loop -/

/-- The pure xor of the terms `t <<< i` at increasing positions: the value
accumulated by `xorShiftAcc` when no shift overflows. -/
def mix : List Nat → Nat → Nat
  | [], _ => 0
  | t :: rest, i => (t <<< i) ^^^ mix rest (i + 1)

theorem xorShiftAcc_eq_mix (width : Nat) (terms : List Nat) (i acc : Nat)
    (hlen : i + terms.length ≤ width) (hterms : ∀ t ∈ terms, t ≤ 1) :
    xorShiftAcc width terms i acc = some (acc ^^^ mix terms i) := by
  induction terms generalizing i acc with
  | nil => simp [xorShiftAcc, mix]
  | cons t rest ih =>
    have hi : i < width := by simp only [List.length_cons] at hlen; omega
    have ht : t ≤ 1 := hterms t (by simp)
    have hmod : (t <<< i) % 2 ^ width = t <<< i := by
      apply Nat.mod_eq_of_lt
      calc t <<< i = t * 2 ^ i := Nat.shiftLeft_eq t i
        _ ≤ 1 * 2 ^ i := Nat.mul_le_mul_right _ ht
        _ = 2 ^ i := one_mul _
        _ < 2 ^ width := Nat.pow_lt_pow_right (by norm_num) hi
    rw [xorShiftAcc, if_pos hi, hmod,
      ih (i + 1) (acc ^^^ t <<< i) (by simp only [List.length_cons] at hlen; omega)
        (fun u hu => hterms u (List.mem_cons_of_mem _ hu))]
    rw [mix, ← Nat.xor_assoc]

theorem xorShiftAcc_none (width : Nat) (terms : List Nat) (i acc : Nat)
    (hne : terms ≠ []) (hlen : width < i + terms.length) :
    xorShiftAcc width terms i acc = none := by
  induction terms generalizing i acc with
  | nil => exact absurd rfl hne
  | cons t rest ih =>
    by_cases hi : i < width
    · have hrest : rest ≠ [] := by
        intro h
        subst h
        simp only [List.length_cons, List.length_nil] at hlen
        omega
      rw [xorShiftAcc, if_pos hi]
      exact ih _ _ hrest (by simp only [List.length_cons] at hlen ⊢; omega)
    · rw [xorShiftAcc, if_neg hi]

theorem testBit_mix (terms : List Nat) (hterms : ∀ t ∈ terms, t ≤ 1) (i j : Nat) :
    (mix terms i).testBit j =
      (decide (i ≤ j) && decide ((terms[j - i]?).getD 0 = 1)) := by
  induction terms generalizing i with
  | nil => simp [mix]
  | cons t rest ih =>
    have ht : t ≤ 1 := hterms t (by simp)
    rw [mix, Nat.testBit_xor, Nat.testBit_shiftLeft,
      ih (fun u hu => hterms u (List.mem_cons_of_mem _ hu)) (i + 1)]
    rcases Nat.lt_trichotomy j i with hj | hj | hj
    · have h1 : ¬ j ≥ i := by omega
      have h2 : ¬ i ≤ j := by omega
      have h3 : ¬ i + 1 ≤ j := by omega
      simp [h1, h2, h3]
    · subst hj
      have h3 : ¬ j + 1 ≤ j := by omega
      have h4 : j - j = 0 := by omega
      have h5 : t.testBit 0 = decide (t = 1) := by
        interval_cases t <;> simp
      simp [h3, h4, h5]
    · have h1 : j ≥ i := by omega
      have h2 : i ≤ j := by omega
      have h3 : i + 1 ≤ j := by omega
      have h4 : t.testBit (j - i) = false := by
        apply Nat.testBit_lt_two_pow
        calc t < 2 ^ 1 := by omega
          _ ≤ 2 ^ (j - i) := Nat.pow_le_pow_right (by norm_num) (by omega)
      have h5 : (t :: rest)[j - i]? = rest[j - (i + 1)]? := by
        have h6 : j - i = (j - (i + 1)) + 1 := by omega
        rw [h6, List.getElem?_cons_succ]
      simp [h1, h2, h3, h4, h5]

/-! ### Numeric value of a bit list -/

/-- The numeric value of a list of bits, index 0 least significant. -/
def bitsPattern : List Bit → Nat
  | [] => 0
  | b :: rest => b.toNat + 2 * bitsPattern rest

theorem bitsPattern_lt (bits : List Bit) : bitsPattern bits < 2 ^ bits.length := by
  induction bits with
  | nil => simp [bitsPattern]
  | cons b rest ih =>
    have hb : b.toNat ≤ 1 := by cases b <;> simp [Bit.toNat]
    simp only [bitsPattern, List.length_cons, pow_succ]
    omega

theorem testBit_bitsPattern (bits : List Bit) (j : Nat) :
    (bitsPattern bits).testBit j = decide ((bits[j]?).getD Bit.zero = Bit.one) := by
  induction bits generalizing j with
  | nil => simp [bitsPattern]
  | cons b rest ih =>
    have hb : b.toNat < 2 ^ 1 := by cases b <;> simp [Bit.toNat]
    have hshape : bitsPattern (b :: rest) = 2 ^ 1 * bitsPattern rest + b.toNat := by
      simp only [bitsPattern, pow_one]
      omega
    rw [hshape, Nat.testBit_mul_pow_two_add _ hb]
    cases j with
    | zero =>
      have : b.toNat.testBit 0 = decide (b = Bit.one) := by
        cases b <;> simp [Bit.toNat]
      simp [this]
    | succ n =>
      simp [ih n]

theorem bitsPattern_map_range (p w : Nat) (hp : p < 2 ^ w) :
    bitsPattern ((List.range w).map fun n => if p.testBit n then Bit.one else Bit.zero) = p := by
  apply Nat.eq_of_testBit_eq
  intro j
  rw [testBit_bitsPattern]
  by_cases hj : j < w
  · rw [List.getElem?_map, List.getElem?_range hj]
    by_cases hb : p.testBit j <;> simp [hb]
  · have h1 : ((List.range w).map fun n => if p.testBit n then Bit.one else Bit.zero)[j]? = none := by
      rw [List.getElem?_eq_none]
      simp only [List.length_map, List.length_range]
      omega
    have h2 : p.testBit j = false := by
      apply Nat.testBit_lt_two_pow
      calc p < 2 ^ w := hp
        _ ≤ 2 ^ j := Nat.pow_le_pow_right (by norm_num) (by omega)
    simp [h1, h2]

/-! ### The two branches of `bits_to_int` -/

theorem mix_toNat_eq (bits : List Bit) :
    mix (bits.map Bit.toNat) 0 = bitsPattern bits := by
  apply Nat.eq_of_testBit_eq
  intro j
  rw [testBit_mix _ (by
      intro t htm
      simp only [List.mem_map] at htm
      obtain ⟨b, _, rfl⟩ := htm
      cases b <;> simp [Bit.toNat]) 0 j,
    testBit_bitsPattern]
  rw [List.getElem?_map]
  cases hb : bits[j - 0]? with
  | none =>
    have : j - 0 = j := by omega
    rw [this] at hb
    simp [hb]
  | some b =>
    have : j - 0 = j := by omega
    rw [this] at hb
    cases b <;> simp [hb, Bit.toNat]

theorem testBit_signFill (bits : List Bit) (w j : Nat) (hlen : bits.length ≤ w) :
    (bitsPattern bits + (2 ^ w - 2 ^ bits.length)).testBit j =
      if j < bits.length then (bitsPattern bits).testBit j else decide (j < w) := by
  have hsplit : bitsPattern bits + (2 ^ w - 2 ^ bits.length)
      = 2 ^ bits.length * (2 ^ (w - bits.length) - 1) + bitsPattern bits := by
    have hpow : 2 ^ bits.length * 2 ^ (w - bits.length) = 2 ^ w := by
      rw [← pow_add, Nat.add_sub_cancel' hlen]
    have hle : 2 ^ bits.length ≤ 2 ^ w := Nat.pow_le_pow_right (by norm_num) hlen
    rw [Nat.mul_sub, hpow]
    omega
  rw [hsplit, Nat.testBit_mul_pow_two_add _ (bitsPattern_lt bits)]
  by_cases hj : j < bits.length
  · simp [hj]
  · rw [if_neg hj, if_neg hj, Nat.testBit_two_pow_sub_one]
    exact decide_eq_decide.mpr (by omega)

theorem mix_inverted_eq (bits : List Bit) (w : Nat) (hlen : bits.length ≤ w) :
    (2 ^ w - 1) ^^^ mix (bits.map fun b => b.toNat ^^^ 1) 0
      = bitsPattern bits + (2 ^ w - 2 ^ bits.length) := by
  apply Nat.eq_of_testBit_eq
  intro j
  rw [Nat.testBit_xor, Nat.testBit_two_pow_sub_one,
    testBit_mix _ (by
      intro t htm
      simp only [List.mem_map] at htm
      obtain ⟨b, _, rfl⟩ := htm
      cases b <;> simp [Bit.toNat]) 0 j,
    testBit_signFill _ _ _ hlen]
  have hj0 : j - 0 = j := by omega
  rw [List.getElem?_map, hj0]
  by_cases hj : j < bits.length
  · obtain ⟨b, hb⟩ : ∃ b, bits[j]? = some b := ⟨bits[j], List.getElem?_eq_getElem hj⟩
    have hjw : j < w := by omega
    rw [if_pos hj, testBit_bitsPattern, hb]
    cases b <;> simp [hb, Bit.toNat, hjw]
  · have hb : bits[j]? = none := by
      rw [List.getElem?_eq_none]
      omega
    rw [if_neg hj, hb]
    by_cases hjw : j < w <;> simp [hjw]

/-- The `T.width`-bit pattern produced by `bits_to_int` on a non-empty bit
list of length at most `T.width`: the low bits are the list itself and, when
`T` is signed with the top listed bit set, the remaining high bits are ones. -/
def extendPattern (T : IntTy) (bits : List Bit) : Nat :=
  if T.signed ∧ bits.getLast?.getD Bit.zero = Bit.one then
    bitsPattern bits + (2 ^ T.width - 2 ^ bits.length)
  else
    bitsPattern bits

theorem extendPattern_lt (T : IntTy) (bits : List Bit) (hlen : bits.length ≤ T.width) :
    extendPattern T bits < 2 ^ T.width := by
  have h1 := bitsPattern_lt bits
  have h2 : 2 ^ bits.length ≤ 2 ^ T.width := Nat.pow_le_pow_right (by norm_num) hlen
  unfold extendPattern
  split <;> omega

theorem bits_to_int_eq (T : IntTy) (bits : List Bit) (hne : bits ≠ [])
    (hlen : bits.length ≤ T.width) :
    bits_to_int T bits = some (T.toValue (extendPattern T bits)) := by
  obtain ⟨top, htop⟩ : ∃ top, bits.getLast? = some top := by
    cases h : bits.getLast? with
    | none => exact absurd (List.getLast?_eq_none_iff.mp h) hne
    | some b => exact ⟨b, rfl⟩
  have hmap1 : (bits.map Bit.toNat).length = bits.length := List.length_map _ _
  have hmap2 : (bits.map fun b => b.toNat ^^^ 1).length = bits.length := List.length_map _ _
  have hterms1 : ∀ t ∈ bits.map Bit.toNat, t ≤ 1 := by
    intro t htm
    simp only [List.mem_map] at htm
    obtain ⟨b, _, rfl⟩ := htm
    cases b <;> simp [Bit.toNat]
  have hterms2 : ∀ t ∈ bits.map fun b => b.toNat ^^^ 1, t ≤ 1 := by
    intro t htm
    simp only [List.mem_map] at htm
    obtain ⟨b, _, rfl⟩ := htm
    cases b <;> simp [Bit.toNat]
  unfold bits_to_int
  rw [htop]
  dsimp only
  by_cases hc : top = Bit.one ∧ T.signed
  · rw [if_pos hc,
      xorShiftAcc_eq_mix T.width _ 0 _ (by rw [hmap2]; omega) hterms2,
      mix_inverted_eq bits T.width hlen]
    have hcond : (T.signed ∧ bits.getLast?.getD Bit.zero = Bit.one) := by
      rw [htop]
      exact ⟨hc.2, by simp [hc.1]⟩
    rw [extendPattern, if_pos hcond]
    rfl
  · rw [if_neg hc,
      xorShiftAcc_eq_mix T.width _ 0 _ (by rw [hmap1]; omega) hterms1,
      Nat.zero_xor, mix_toNat_eq bits]
    have hcond : ¬ (T.signed ∧ bits.getLast?.getD Bit.zero = Bit.one) := by
      rw [htop]
      intro hand
      exact hc ⟨by simpa using hand.2, hand.1⟩
    rw [extendPattern, if_neg hcond]
    rfl

/-! ### Bit patterns and integer values -/

theorem patOfInt_nonneg_lt (w : Nat) (v : Int) (h0 : 0 ≤ v) (hlt : v < ((2 ^ w : Nat) : Int)) :
    (patOfInt w v : Int) = v := by
  unfold patOfInt
  rw [Int.emod_eq_of_lt h0 hlt, Int.toNat_of_nonneg h0]

theorem patOfInt_neg (w : Nat) (v : Int) (h0 : -((2 ^ w : Nat) : Int) ≤ v) (hlt : v < 0) :
    (patOfInt w v : Int) = v + ((2 ^ w : Nat) : Int) := by
  unfold patOfInt
  have h1 : v % ((2 ^ w : Nat) : Int) = (v + ((2 ^ w : Nat) : Int)) % ((2 ^ w : Nat) : Int) := by
    conv_rhs => rw [show v + ((2 ^ w : Nat) : Int) = v + 1 * ((2 ^ w : Nat) : Int) by ring]
    rw [Int.add_mul_emod_self]
  have h2 : (v + ((2 ^ w : Nat) : Int)) % ((2 ^ w : Nat) : Int) = v + ((2 ^ w : Nat) : Int) := by
    apply Int.emod_eq_of_lt (by omega) (by omega)
  rw [h1, h2, Int.toNat_of_nonneg (by omega)]

theorem patOfInt_toValue (T : IntTy) (r : Nat) (hr : r < 2 ^ T.width) :
    patOfInt T.width (T.toValue r) = r := by
  unfold IntTy.toValue
  split
  · have h := patOfInt_neg T.width ((r : Int) - ((2 ^ T.width : Nat) : Int))
      (by omega) (by omega)
    have h2 : ((patOfInt T.width ((r : Int) - ((2 ^ T.width : Nat) : Int)) : Nat) : Int)
        = (r : Int) := by omega
    exact_mod_cast h2
  · have h := patOfInt_nonneg_lt T.width (r : Int) (by positivity) (by omega)
    exact_mod_cast h

/-- Bit `n` of the machine value `v` (computed with an arithmetic shift and a
mask, as in `int_to_bits_sized`) agrees with bit `n` of the `w`-bit
two's-complement pattern of `v`, for `n < w`. -/
theorem intBit_eq_testBit (v : Int) (w n : Nat) (hn : n < w) :
    ((v >>> n) % 2 = 1) ↔ (patOfInt w v).testBit n = true := by
  have hw0 : ((2 ^ w : Nat) : Int) ≠ 0 := by positivity
  have hp : ((patOfInt w v : Nat) : Int) = v % ((2 ^ w : Nat) : Int) := by
    unfold patOfInt
    exact Int.toNat_of_nonneg (Int.emod_nonneg v hw0)
  set p : Nat := patOfInt w v with hpdef
  have hv : v = (p : Int) + ((2 ^ (w - n) : Nat) : Int) * (v / ((2 ^ w : Nat) : Int))
      * ((2 ^ n : Nat) : Int) := by
    have hsplit : ((2 ^ (w - n) : Nat) : Int) * ((2 ^ n : Nat) : Int) = ((2 ^ w : Nat) : Int) := by
      push_cast
      rw [← pow_add]
      congr 1
      omega
    calc v = v % ((2 ^ w : Nat) : Int) + ((2 ^ w : Nat) : Int) * (v / ((2 ^ w : Nat) : Int)) :=
          (Int.emod_add_ediv v _).symm
      _ = (p : Int) + ((2 ^ (w - n) : Nat) : Int) * (v / ((2 ^ w : Nat) : Int))
          * ((2 ^ n : Nat) : Int) := by rw [hp]; rw [← hsplit]; ring
  have hn0 : ((2 ^ n : Nat) : Int) ≠ 0 := by positivity
  have hshift : v >>> n = (p : Int) / ((2 ^ n : Nat) : Int)
      + ((2 ^ (w - n) : Nat) : Int) * (v / ((2 ^ w : Nat) : Int)) := by
    rw [Int.shiftRight_eq_div_pow]
    conv_lhs => rw [hv]
    exact Int.add_mul_ediv_right _ _ hn0
  have hmod : (v >>> n) % 2 = ((p : Int) / ((2 ^ n : Nat) : Int)) % 2 := by
    rw [hshift]
    have hwn : ((2 ^ (w - n) : Nat) : Int) = ((2 ^ (w - n - 1) : Nat) : Int) * 2 := by
      push_cast
      rw [← pow_succ]
      congr 1
      omega
    rw [hwn, show (p : Int) / ((2 ^ n : Nat) : Int)
        + ((2 ^ (w - n - 1) : Nat) : Int) * 2 * (v / ((2 ^ w : Nat) : Int))
      = (p : Int) / ((2 ^ n : Nat) : Int)
        + ((2 ^ (w - n - 1) : Nat) : Int) * (v / ((2 ^ w : Nat) : Int)) * 2 by ring,
      Int.add_mul_emod_self]
  have hcast : ((p : Int) / ((2 ^ n : Nat) : Int)) % 2 = ((p / 2 ^ n % 2 : Nat) : Int) := by
    push_cast [Int.natCast_div]
    rfl
  rw [hmod, hcast, Nat.testBit_to_div_mod]
  constructor
  · intro h
    exact decide_eq_true (by exact_mod_cast h)
  · intro h
    have := of_decide_eq_true h
    exact_mod_cast this

theorem int_to_bits_eq_testBit (T : IntTy) (v : Int) (size : Nat) (hsize : size ≤ T.width) :
    int_to_bits_sized T v size
      = some ((List.range size).map fun n =>
          if (patOfInt T.width v).testBit n then Bit.one else Bit.zero) := by
  unfold int_to_bits_sized
  rw [if_pos hsize]
  congr 1
  apply List.map_congr_left
  intro n hn
  have hnw : n < T.width := lt_of_lt_of_le (List.mem_range.mp hn) hsize
  by_cases hb : (patOfInt T.width v).testBit n
  · rw [if_pos ((intBit_eq_testBit v T.width n hnw).mpr hb), if_pos hb]
  · rw [if_neg (fun h => hb ((intBit_eq_testBit v T.width n hnw).mp h)), if_neg hb]

/-- Round trip at the level of a single bit list (one chunk): converting a
non-empty bit list of length at most the width of `T` to a `T` value and
re-expanding that value over the same number of bits recovers the list. -/
theorem chunk_roundtrip (T : IntTy) (c : List Bit) (hne : c ≠ [])
    (hlen : c.length ≤ T.width) :
    (bits_to_int T c).bind (fun v => int_to_bits_sized T v c.length) = some c := by
  rw [bits_to_int_eq T c hne hlen, Option.some_bind,
    int_to_bits_eq_testBit T _ _ hlen,
    patOfInt_toValue T _ (extendPattern_lt T c hlen)]
  congr 1
  apply List.ext_getElem
  · simp
  · intro j hjm hjc
    have hj : j < c.length := hjc
    have hjr : j < (List.range c.length).length := by simpa using hj
    rw [List.getElem_map, List.getElem_range]
    have hbit : (extendPattern T c).testBit j = (bitsPattern c).testBit j := by
      unfold extendPattern
      split
      · rw [testBit_signFill c T.width j hlen, if_pos hj]
      · rfl
    rw [hbit, testBit_bitsPattern, List.getElem?_eq_getElem hj]
    rcases hcj : c.get ⟨j, hj⟩ with _ | _ <;>
      rw [List.get_eq_getElem] at hcj <;> simp [hcj]

/-- C1, main theorem.  For every primitive integer type `T` of width `W > 0`
and every representable value `v` (the whole negative range included when `T`
is signed), `from_int_sized` at size `W` followed by `to_int` returns exactly
`v`; the definitions follow the source algorithm, in particular the signed
sign-extension path that starts from all-ones and xors in `(bit[i] XOR 1) << i`. -/
theorem from_int_sized_to_int_roundtrip (T : IntTy) (v : Int)
    (hW : 0 < T.width) (hv : T.inRange v) :
    (BitVec.from_int_sized T v T.width).bind (BitVec.to_int T) = some v := by
  have hp : patOfInt T.width v < 2 ^ T.width := by
    have h1 : (0 : Int) ≤ v % ((2 ^ T.width : Nat) : Int) :=
      Int.emod_nonneg v (by positivity)
    have h2 : v % ((2 ^ T.width : Nat) : Int) < ((2 ^ T.width : Nat) : Int) :=
      Int.emod_lt_of_pos v (by positivity)
    unfold patOfInt
    omega
  unfold BitVec.from_int_sized BitVec.to_int
  rw [int_to_bits_eq_testBit T v T.width (le_refl _)]
  simp only [Option.map_some', Option.some_bind]
  set bits0 : List Bit :=
    (List.range T.width).map fun n => if (patOfInt T.width v).testBit n then Bit.one else Bit.zero
    with hbits0
  have hlen : bits0.length = T.width := by simp [hbits0]
  have hne : bits0 ≠ [] := by
    intro h
    rw [h] at hlen
    simp at hlen
    omega
  rw [bits_to_int_eq T bits0 hne (le_of_eq hlen)]
  have hbp : bitsPattern bits0 = patOfInt T.width v := bitsPattern_map_range _ _ hp
  have hlast : bits0.getLast? =
      some (if (patOfInt T.width v).testBit (T.width - 1) then Bit.one else Bit.zero) := by
    rw [List.getLast?_eq_getElem?, hlen]
    rw [List.getElem?_map, List.getElem?_range (by omega)]
    rfl
  congr 1
  have hlastD : bits0.getLast?.getD Bit.zero
      = (if (patOfInt T.width v).testBit (T.width - 1) then Bit.one else Bit.zero) := by
    rw [hlast]
    rfl
  rcases hs : T.signed with _ | _
  · -- unsigned: the value is its own pattern
    simp only [IntTy.inRange, hs, if_false, Bool.false_eq_true] at hv
    have hE : extendPattern T bits0 = patOfInt T.width v := by
      unfold extendPattern
      rw [if_neg (by rw [hs]; simp), hbp]
    rw [hE]
    unfold IntTy.toValue
    rw [if_neg (by rw [hs]; simp)]
    exact patOfInt_nonneg_lt T.width v hv.1 hv.2
  · simp only [IntTy.inRange, hs, if_true] at hv
    rcases lt_or_le v 0 with hneg | hpos
    · -- negative: pattern is v + 2^W, sign bit set, branch subtracts 2^W back
      have hple : 2 ^ (T.width - 1) ≤ 2 ^ T.width := Nat.pow_le_pow_right (by norm_num) (by omega)
      have hveq : (patOfInt T.width v : Int) = v + ((2 ^ T.width : Nat) : Int) :=
        patOfInt_neg T.width v (by omega) hneg
      have hgep : 2 ^ (T.width - 1) ≤ patOfInt T.width v := by
        have hsplit : (2 : Nat) ^ T.width = 2 ^ (T.width - 1) * 2 := by
          rw [← pow_succ]
          congr 1
          omega
        omega
      have htb : (patOfInt T.width v).testBit (T.width - 1) = true := by
        have hrem : patOfInt T.width v - 2 ^ (T.width - 1) < 2 ^ (T.width - 1) := by
          have hsplit : (2 : Nat) ^ T.width = 2 ^ (T.width - 1) * 2 := by
            rw [← pow_succ]
            congr 1
            omega
          omega
        have hdecomp : patOfInt T.width v
            = 2 ^ (T.width - 1) * 1 + (patOfInt T.width v - 2 ^ (T.width - 1)) := by omega
        rw [hdecomp, Nat.testBit_mul_pow_two_add _ hrem, if_neg (by omega)]
        simp
      have hE : extendPattern T bits0 = patOfInt T.width v := by
        unfold extendPattern
        rw [if_pos ⟨hs, by rw [hlastD, htb]; simp⟩, hbp, hlen, Nat.sub_self, Nat.add_zero]
      rw [hE]
      unfold IntTy.toValue
      rw [if_pos ⟨hs, htb⟩]
      omega
    · -- non-negative: pattern below 2^(W-1), sign bit clear
      have hlt1 : v < ((2 ^ (T.width - 1) : Nat) : Int) := hv.2
      have hple : 2 ^ (T.width - 1) ≤ 2 ^ T.width := Nat.pow_le_pow_right (by norm_num) (by omega)
      have hveq : (patOfInt T.width v : Int) = v :=
        patOfInt_nonneg_lt T.width v hpos (by omega)
      have htb : (patOfInt T.width v).testBit (T.width - 1) = false := by
        apply Nat.testBit_lt_two_pow
        omega
      have hE : extendPattern T bits0 = patOfInt T.width v := by
        unfold extendPattern
        rw [if_neg (by rw [hlastD, htb]; simp), hbp]
      rw [hE]
      unfold IntTy.toValue
      rw [if_neg (by rw [htb]; simp)]
      exact hveq

/-- C1: for every primitive integer type `T` of width `W` and every
representable value `v` of `T` (the entire negative range included for signed
`T`), converting `v` to a bit vector of size `W` with `from_int_sized`
(bit `i` is `(v >> i) & 1`) and converting back with `to_int` yields exactly
`v`; the back-conversion is the source algorithm, whose signed path starts
from all-ones and applies `acc ^= (bit[i] XOR 1) << i`. -/
theorem C1_from_int_sized_to_int_roundtrip (T : IntTy) (v : Int)
    (hW : 0 < T.width) (hv : T.inRange v) :
    (BitVec.from_int_sized T v T.width).bind (BitVec.to_int T) = some v :=
  from_int_sized_to_int_roundtrip T v hW hv

/-- Witness for C1 at the signed 4-bit type and the negative value `-3`. -/
theorem C1_witness :
    0 < (4 : Nat) ∧ IntTy.inRange ⟨4, true⟩ (-3) ∧
      (BitVec.from_int_sized ⟨4, true⟩ (-3) 4).bind (BitVec.to_int ⟨4, true⟩) = some (-3) :=
  ⟨by norm_num, by unfold IntTy.inRange; norm_num,
    C1_from_int_sized_to_int_roundtrip ⟨4, true⟩ (-3) (by norm_num)
      (by unfold IntTy.inRange; norm_num)⟩

/-! ### Chunked conversions -/

/-- Structural worker for `chunksOf`: the fuel argument bounds the length of
the list, so the `0` fuel case with a non-empty list is never reached. -/
def chunksOfGo (n : Nat) : Nat → List Bit → List (List Bit)
  | _, [] => []
  | 0, _ :: _ => []
  | fuel + 1, a :: t => (a :: t.take (n - 1)) :: chunksOfGo n fuel (t.drop (n - 1))

/-- Split a list into consecutive chunks of `n` elements, the last chunk
possibly shorter (Rust `slice::chunks`; callers guard against `n = 0`, on
which the Rust method panics). -/
def chunksOf (n : Nat) (l : List Bit) : List (List Bit) :=
  chunksOfGo n l.length l

theorem chunksOfGo_congr (n : Nat) (fuel fuel' : Nat) (l : List Bit)
    (h : l.length ≤ fuel) (h' : l.length ≤ fuel') :
    chunksOfGo n fuel l = chunksOfGo n fuel' l := by
  induction fuel generalizing fuel' l with
  | zero =>
    match l, fuel' with
    | [], 0 => rfl
    | [], fuel' + 1 => rfl
    | a :: t, _ => simp at h
  | succ fuel ih =>
    match l, fuel' with
    | [], 0 => rfl
    | [], fuel' + 1 => rfl
    | a :: t, 0 => simp at h'
    | a :: t, fuel' + 1 =>
      rw [chunksOfGo, chunksOfGo]
      have hd : (t.drop (n - 1)).length ≤ fuel := by
        rw [List.length_drop]
        simp only [List.length_cons] at h
        omega
      have hd' : (t.drop (n - 1)).length ≤ fuel' := by
        rw [List.length_drop]
        simp only [List.length_cons] at h'
        omega
      rw [ih fuel' (t.drop (n - 1)) hd hd']

/-- `BitVec::bits_to_ints` (src/bit.rs, lines 285-290): chunk the bits into
groups of `elem_size` and convert each chunk with `bits_to_int`.
`slice::chunks(0)` panics (`none`). -/
def bits_to_ints (T : IntTy) (bits : List Bit) (elem_size : Nat) : Option (List Int) :=
  if elem_size = 0 then none
  else (chunksOf elem_size bits).mapM (bits_to_int T)

/-- `BitVec::to_ints_sized`. -/
def BitVec.to_ints_sized (T : IntTy) (bv : BitVec) (elem_size : Nat) : Option (List Int) :=
  bits_to_ints T bv.bits elem_size

/-- `BitVec::from_ints_sized` (src/bit.rs, lines 340-347): append the
`elem_size`-bit expansions of the values in array order. -/
def BitVec.from_ints_sized (T : IntTy) (vals : List Int) (elem_size : Nat) : Option BitVec :=
  (vals.mapM fun v => int_to_bits_sized T v elem_size).map fun ls => BitVec.mk ls.flatten

theorem chunksOf_pos_eq (n : Nat) (hn : 0 < n) (a : Bit) (l : List Bit) :
    chunksOf n (a :: l) = (a :: l).take n :: chunksOf n ((a :: l).drop n) := by
  obtain ⟨m, rfl⟩ : ∃ m, n = m + 1 := ⟨n - 1, by omega⟩
  show chunksOfGo (m + 1) (l.length + 1) (a :: l) = _
  rw [chunksOfGo]
  have h1 : (a :: l).take (m + 1) = a :: l.take m := List.take_succ_cons
  have h2 : (a :: l).drop (m + 1) = l.drop m := List.drop_succ_cons
  have h3 : m + 1 - 1 = m := by omega
  have h4 : chunksOfGo (m + 1) l.length (l.drop m) =
      chunksOfGo (m + 1) (l.drop m).length (l.drop m) := by
    apply chunksOfGo_congr
    · rw [List.length_drop]
      omega
    · exact le_refl _
  rw [h3, h4, h1, h2]
  rfl

theorem bits_chunks_roundtrip (T : IntTy) (s : Nat) (hs : 0 < s) (hsw : s ≤ T.width) :
    ∀ (k : Nat) (bits : List Bit), bits.length = k → s ∣ k →
      (bits_to_ints T bits s).bind
        (fun vals => (vals.mapM fun v => int_to_bits_sized T v s).map List.flatten)
      = some bits := by
  intro k
  induction k using Nat.strong_induction_on with
  | _ k ih =>
    intro bits hk hdvd
    match bits with
    | [] =>
      have hnil : chunksOf s [] = [] := rfl
      rw [bits_to_ints, if_neg (by omega), hnil, List.mapM_nil]
      simp only [Option.pure_def, Option.some_bind]
      rw [List.mapM_nil]
      simp
    | a :: l =>
      have hk1 : 0 < k := by rw [← hk]; simp
      have hks : s ≤ k := Nat.le_of_dvd hk1 hdvd
      have hclen : ((a :: l).take s).length = s := by
        rw [List.length_take, hk]
        omega
      have hcne : (a :: l).take s ≠ [] := by
        intro h
        rw [h] at hclen
        simp at hclen
        omega
      have hrlen : ((a :: l).drop s).length = k - s := by
        rw [List.length_drop, hk]
      have hrdvd : s ∣ (k - s) := Nat.dvd_sub' hdvd dvd_rfl
      have hrec := ih (k - s) (by omega) ((a :: l).drop s) hrlen hrdvd
      have hchunk := chunk_roundtrip T ((a :: l).take s) hcne (by omega)
      rw [hclen] at hchunk
      obtain ⟨v, hv1, hv2⟩ : ∃ v, bits_to_int T ((a :: l).take s) = some v ∧
          int_to_bits_sized T v s = some ((a :: l).take s) := by
        cases hb : bits_to_int T ((a :: l).take s) with
        | none => rw [hb] at hchunk; simp at hchunk
        | some v =>
          rw [hb, Option.some_bind] at hchunk
          exact ⟨v, rfl, hchunk⟩
      rw [bits_to_ints, if_neg (by omega)] at hrec ⊢
      rw [chunksOf_pos_eq s hs a l, List.mapM_cons, hv1]
      obtain ⟨vals, hvals, ls, hls, hjoin⟩ : ∃ vals,
          (chunksOf s ((a :: l).drop s)).mapM (bits_to_int T) = some vals ∧
          ∃ ls, (vals.mapM fun v => int_to_bits_sized T v s) = some ls ∧
            ls.flatten = (a :: l).drop s := by
        cases hb : (chunksOf s ((a :: l).drop s)).mapM (bits_to_int T) with
        | none => rw [hb] at hrec; simp at hrec
        | some vals =>
          rw [hb, Option.some_bind] at hrec
          cases hm : vals.mapM fun v => int_to_bits_sized T v s with
          | none => rw [hm] at hrec; simp at hrec
          | some ls =>
            rw [hm] at hrec
            simp only [Option.map_some', Option.some.injEq] at hrec
            exact ⟨vals, rfl, ls, hm, hrec⟩
      have hm2 : ((v :: vals).mapM fun v => int_to_bits_sized T v s)
          = some (List.take s (a :: l) :: ls) := by
        rw [List.mapM_cons, hv2, hls]
        rfl
      rw [hvals]
      show ((v :: vals).mapM fun v => int_to_bits_sized T v s).map List.flatten
          = some (a :: l)
      rw [hm2]
      simp only [Option.map_some', Option.some.injEq, List.flatten_cons, hjoin]
      exact List.take_append_drop s (a :: l)

/-- C8 counterexample: for `T` of width 8 and chunk width `s = 16` (which
divides the length 16 of the input), `bits_to_int` on the 16-bit chunk shifts
by amounts up to 15, at least the bit width of `T`; the conversion panics
(modelled `none`) instead of returning the original vector. -/
theorem C8_counterexample :
    (16 : Nat) ∣ (BitVec.mk (List.replicate 16 Bit.zero)).bits.length ∧
      (BitVec.to_ints_sized ⟨8, false⟩ ⟨List.replicate 16 Bit.zero⟩ 16).bind
        (fun vals => BitVec.from_ints_sized ⟨8, false⟩ vals 16)
      = none := by
  constructor
  · simp
  · rfl

/-- C8 (amended): for every integer type `T`, every chunk width `s` with
`0 < s ≤ width of T`, and every BitVec whose length `s` divides, unpacking
with `to_ints_sized` and repacking with `from_ints_sized` returns the
original vector. -/
theorem C8_to_ints_from_ints_roundtrip (T : IntTy) (bv : BitVec) (s : Nat)
    (hs : 0 < s) (hsw : s ≤ T.width) (hdvd : s ∣ bv.bits.length) :
    (BitVec.to_ints_sized T bv s).bind (fun vals => BitVec.from_ints_sized T vals s)
      = some bv := by
  have h := bits_chunks_roundtrip T s hs hsw bv.bits.length bv.bits rfl hdvd
  unfold BitVec.to_ints_sized BitVec.from_ints_sized
  cases hb : bits_to_ints T bv.bits s with
  | none => rw [hb] at h; simp at h
  | some vals =>
    rw [hb, Option.some_bind] at h
    cases hm : vals.mapM fun v => int_to_bits_sized T v s with
    | none => rw [hm] at h; simp at h
    | some ls =>
      rw [hm] at h
      simp only [Option.map_some', Option.some.injEq] at h
      simp only [Option.some_bind, hm, Option.map_some', Option.some.injEq]
      rw [h]

/-- Witness for the amended C8 at a signed 4-bit type, chunk width 2 and the
four-bit vector 1011 (LSB first). -/
theorem C8_witness :
    (0 : Nat) < 2 ∧ (2 : Nat) ≤ 4 ∧
      (2 : Nat) ∣ (BitVec.mk [Bit.one, Bit.one, Bit.zero, Bit.one]).bits.length ∧
      (BitVec.to_ints_sized ⟨4, true⟩ ⟨[Bit.one, Bit.one, Bit.zero, Bit.one]⟩ 2).bind
        (fun vals => BitVec.from_ints_sized ⟨4, true⟩ vals 2)
      = some ⟨[Bit.one, Bit.one, Bit.zero, Bit.one]⟩ :=
  ⟨by norm_num, by norm_num, by decide,
    C8_to_ints_from_ints_roundtrip ⟨4, true⟩ ⟨[Bit.one, Bit.one, Bit.zero, Bit.one]⟩ 2
      (by norm_num) (by norm_num) (by decide)⟩

/-! ### Totality of `to_int` (C10) -/

/-- C10 counterexample: a non-empty BitVec of 9 bits converted with a type of
width 8 panics on the ninth shift instead of returning a value, so
`to_int` is not total on all non-empty vectors. -/
theorem C10_counterexample :
    (BitVec.mk (List.replicate 9 Bit.zero)).bits ≠ [] ∧
      BitVec.to_int ⟨8, false⟩ ⟨List.replicate 9 Bit.zero⟩ = none := by
  constructor
  · simp
  · rfl

/-- C10 (amended): `to_int` returns a value exactly for the non-empty bit
vectors of length at most the bit width of `T`; in particular, it panics on
the empty BitVec (modelled `none`) instead of returning 0 or an error. -/
theorem C10_to_int_totality : ∀ (T : IntTy) (bv : BitVec),
    ((BitVec.to_int T bv).isSome = true ↔ bv.bits ≠ [] ∧ bv.bits.length ≤ T.width)
    ∧ BitVec.to_int T ⟨[]⟩ = none := by
  intro T bv
  constructor
  · unfold BitVec.to_int bits_to_int
    cases hl : bv.bits.getLast? with
    | none =>
      have : bv.bits = [] := List.getLast?_eq_none_iff.mp hl
      simp [this]
    | some top =>
      have hne : bv.bits ≠ [] := by
        intro h
        rw [h] at hl
        simp at hl
      by_cases hlen : bv.bits.length ≤ T.width
      · have h1 : xorShiftAcc T.width (bv.bits.map fun b => b.toNat ^^^ 1) 0 (2 ^ T.width - 1)
            = some ((2 ^ T.width - 1) ^^^ mix (bv.bits.map fun b => b.toNat ^^^ 1) 0) := by
          apply xorShiftAcc_eq_mix
          · rw [List.length_map]; omega
          · intro t htm
            simp only [List.mem_map] at htm
            obtain ⟨b, _, rfl⟩ := htm
            cases b <;> simp [Bit.toNat]
        have h2 : xorShiftAcc T.width (bv.bits.map Bit.toNat) 0 0
            = some (0 ^^^ mix (bv.bits.map Bit.toNat) 0) := by
          apply xorShiftAcc_eq_mix
          · rw [List.length_map]; omega
          · intro t htm
            simp only [List.mem_map] at htm
            obtain ⟨b, _, rfl⟩ := htm
            cases b <;> simp [Bit.toNat]
        by_cases hc : top = Bit.one ∧ T.signed <;>
          simp [hc, h1, h2, hne, hlen]
      · have hmne1 : bv.bits.map (fun b => b.toNat ^^^ 1) ≠ [] := by
          simpa using hne
        have hmne2 : bv.bits.map Bit.toNat ≠ [] := by
          simpa using hne
        have h1 := xorShiftAcc_none T.width (bv.bits.map fun b => b.toNat ^^^ 1) 0
          (2 ^ T.width - 1) hmne1 (by rw [List.length_map]; omega)
        have h2 := xorShiftAcc_none T.width (bv.bits.map Bit.toNat) 0 0 hmne2
          (by rw [List.length_map]; omega)
        by_cases hc : top = Bit.one ∧ T.signed <;>
          simp [hc, h1, h2, hlen]
  · rfl

/-! ### Signals (src/signal.rs) -/

/-- A named net carrying a value and toggle statistics (`struct Net`). -/
structure Net where
  name : String
  index : Nat
  value : Bit
  toggle_count_rising : Nat
  toggle_count_falling : Nat
deriving DecidableEq

/-- Connection between cells/modules or constant (`enum Signal`). -/
inductive Signal where
  | Constant (b : Bit)
  | Net (n : Net)
deriving DecidableEq

/-- `Signal::reset`: zero a net's value and both counters; constants are
untouched. -/
def Signal.reset : Signal → Signal
  | .Constant b => .Constant b
  | .Net n =>
    .Net { n with value := Bit.zero, toggle_count_rising := 0, toggle_count_falling := 0 }

/-- `Signal::get_value`. -/
def Signal.get_value : Signal → Bit
  | .Constant b => b
  | .Net n => n.value

/-- `Signal::get_index` (constants report index 0). -/
def Signal.get_index : Signal → Nat
  | .Constant _ => 0
  | .Net n => n.index

/-- `Signal::set_value`: writing to a constant is a no-op; writing the
current value of a net is a no-op (early `return` before the write); a
`0 → 1` write bumps the rising counter and a `1 → 0` write the falling
counter, then stores the value. -/
def Signal.set_value : Signal → Bit → Signal
  | .Constant b, _ => .Constant b
  | .Net n, val =>
    match n.value, val with
    | Bit.zero, Bit.one =>
      .Net { n with toggle_count_rising := n.toggle_count_rising + 1, value := val }
    | Bit.one, Bit.zero =>
      .Net { n with toggle_count_falling := n.toggle_count_falling + 1, value := val }
    | Bit.zero, Bit.zero => .Net n
    | Bit.one, Bit.one => .Net n

/-- `Signal::get_total_toggle_count` (falling + rising; constants report 0). -/
def Signal.get_total_toggle_count : Signal → Nat
  | .Constant _ => 0
  | .Net n => n.toggle_count_falling + n.toggle_count_rising

/-- `Signal::get_toggle_count_rising`. -/
def Signal.get_toggle_count_rising : Signal → Nat
  | .Constant _ => 0
  | .Net n => n.toggle_count_rising

/-- `Signal::get_toggle_count_falling`. -/
def Signal.get_toggle_count_falling : Signal → Nat
  | .Constant _ => 0
  | .Net n => n.toggle_count_falling

/-- A finite sequence of `set_value` calls applied in order. -/
def applyWrites (s : Signal) (ws : List Bit) : Signal :=
  ws.foldl Signal.set_value s

/-- The number of `0 → 1` transitions along the value trajectory of a write
sequence starting at the given value. -/
def risingTransitions : Bit → List Bit → Nat
  | _, [] => 0
  | v, w :: ws => (if v = Bit.zero ∧ w = Bit.one then 1 else 0) + risingTransitions w ws

/-- The number of `1 → 0` transitions along the value trajectory of a write
sequence starting at the given value. -/
def fallingTransitions : Bit → List Bit → Nat
  | _, [] => 0
  | v, w :: ws => (if v = Bit.one ∧ w = Bit.zero then 1 else 0) + fallingTransitions w ws

theorem getLastD_cons (w d : Bit) (ws : List Bit) :
    ((w :: ws).getLast?).getD d = (ws.getLast?).getD w := by
  cases ws with
  | nil => rfl
  | cons a t =>
    rw [List.getLast?_cons_cons,
      List.getLast?_eq_getLast (a :: t) (by simp)]
    rfl

theorem applyWrites_net (n : Net) (ws : List Bit) :
    applyWrites (Signal.Net n) ws = Signal.Net
      { n with
        value := ws.getLast?.getD n.value,
        toggle_count_rising := n.toggle_count_rising + risingTransitions n.value ws,
        toggle_count_falling := n.toggle_count_falling + fallingTransitions n.value ws } := by
  induction ws generalizing n with
  | nil => simp [applyWrites, risingTransitions, fallingTransitions]
  | cons w ws ih =>
    obtain ⟨nm, ni, nv, nr, nf⟩ := n
    rcases nv with _ | _ <;> rcases w with _ | _
    · rw [show applyWrites (Signal.Net ⟨nm, ni, Bit.zero, nr, nf⟩) (Bit.zero :: ws)
          = applyWrites (Signal.Net ⟨nm, ni, Bit.zero, nr, nf⟩) ws from rfl, ih]
      simp [risingTransitions, fallingTransitions, getLastD_cons]
    · rw [show applyWrites (Signal.Net ⟨nm, ni, Bit.zero, nr, nf⟩) (Bit.one :: ws)
          = applyWrites (Signal.Net ⟨nm, ni, Bit.one, nr + 1, nf⟩) ws from rfl, ih]
      simp [risingTransitions, fallingTransitions, getLastD_cons]
      omega
    · rw [show applyWrites (Signal.Net ⟨nm, ni, Bit.one, nr, nf⟩) (Bit.zero :: ws)
          = applyWrites (Signal.Net ⟨nm, ni, Bit.zero, nr, nf + 1⟩) ws from rfl, ih]
      simp [risingTransitions, fallingTransitions, getLastD_cons]
      omega
    · rw [show applyWrites (Signal.Net ⟨nm, ni, Bit.one, nr, nf⟩) (Bit.one :: ws)
          = applyWrites (Signal.Net ⟨nm, ni, Bit.one, nr, nf⟩) ws from rfl, ih]
      simp [risingTransitions, fallingTransitions, getLastD_cons]

/-- C4: for every Net and every finite write sequence, the total toggle count
stays `rising + falling`, the rising counter grows by exactly the number of
`0 → 1` transitions of the sequence and the falling counter by exactly the
number of `1 → 0` transitions; a write of the current value changes nothing,
and writes to constants change nothing. -/
theorem C4_set_value_toggle_accounting : ∀ (n : Net) (ws : List Bit),
    ((applyWrites (Signal.Net n) ws).get_total_toggle_count
      = (applyWrites (Signal.Net n) ws).get_toggle_count_rising
        + (applyWrites (Signal.Net n) ws).get_toggle_count_falling)
    ∧ ((applyWrites (Signal.Net n) ws).get_toggle_count_rising
      = n.toggle_count_rising + risingTransitions n.value ws)
    ∧ ((applyWrites (Signal.Net n) ws).get_toggle_count_falling
      = n.toggle_count_falling + fallingTransitions n.value ws)
    ∧ (∀ s : Signal, s.set_value s.get_value = s)
    ∧ (∀ (b v : Bit), (Signal.Constant b).set_value v = Signal.Constant b) := by
  intro n ws
  rw [applyWrites_net]
  refine ⟨?_, rfl, rfl, ?_, ?_⟩
  · simp [Signal.get_total_toggle_count, Signal.get_toggle_count_rising,
      Signal.get_toggle_count_falling]
    omega
  · intro s
    rcases s with b | m
    · rfl
    · obtain ⟨mm, mi, mv, mr, mf⟩ := m
      rcases mv with _ | _ <;> rfl
  · intro b v
    rfl

/-! ### Cells (src/cell.rs) -/

/-- Basic logic gate functions (`enum Function`). -/
inductive Function where
  | Inverter
  | And
  | Nor
  | Nand
  | Xor
  | Xnor
  | Or
  | DffPosEdge
  | Buf
deriving DecidableEq

/-- Proxy for a standard cell (`struct Cell`).  The state array `[Bit; 2]` is
a pair (`state.1 = state[0]`, `state.2 = state[1]`); `input_connections`
models the fixed `[SignalIndex; CONNECTION_SIZE]` array as a list (of length
8 for cells built by the importer). -/
structure Cell where
  name : String
  function : Function
  state : Bit × Bit
  num_inputs : Nat
  input_connections : List Nat
  output_connection : Nat
deriving DecidableEq

/-- Read `signals[idx].get_value()`; an out-of-range index panics (`none`). -/
def readSignal (signals : List Signal) (idx : Nat) : Option Bit :=
  (signals[idx]?).map Signal.get_value

/-- Perform `signals[idx].set_value(val)`; an out-of-range index panics
(`none`). -/
def setSignalValue (signals : List Signal) (idx : Nat) (val : Bit) : Option (List Signal) :=
  match signals[idx]? with
  | none => none
  | some s => some (signals.set idx (s.set_value val))

/-- The Rust slice `l[a..b]`, which panics unless `a ≤ b ≤ l.len()`. -/
def sliceIdx (l : List Nat) (a b : Nat) : Option (List Nat) :=
  if a ≤ b ∧ b ≤ l.length then some ((l.drop a).take (b - a)) else none

/-- The shared shape of the multi-input gates in `Cell::eval`: start from the
value of `input_connections[0]` and fold the remaining
`input_connections[1..num_inputs]` values with the given operation. -/
def foldInputs (op : Bit → Bit → Bit) (c : Cell) (signals : List Signal) : Option Bit := do
  let i0 ← c.input_connections[0]?
  let b0 ← readSignal signals i0
  let idxs ← sliceIdx c.input_connections 1 c.num_inputs
  let rest ← idxs.mapM (readSignal signals)
  pure (rest.foldl op b0)

/-- `Cell::eval` (src/cell.rs, lines 128-211): compute the output bit from
the cell function, update the DFF state, and write the output through
`Signal::set_value`.  Out-of-range signal indexing and invalid slices panic
(`none`). -/
def Cell.eval (c : Cell) (signals : List Signal) : Option (Cell × List Signal) := do
  let (out, c1) ← (do
    match c.function with
    | Function.Buf => do
      let i0 ← c.input_connections[0]?
      let b0 ← readSignal signals i0
      pure (b0, c)
    | Function.Inverter => do
      let i0 ← c.input_connections[0]?
      let b0 ← readSignal signals i0
      pure (b0.not, c)
    | Function.And => do
      let b ← foldInputs Bit.and c signals
      pure (b, c)
    | Function.Or => do
      let b ← foldInputs Bit.or c signals
      pure (b, c)
    | Function.Nor => do
      let b ← foldInputs Bit.or c signals
      pure (b.not, c)
    | Function.Nand => do
      let b ← foldInputs Bit.and c signals
      pure (b.not, c)
    | Function.Xor => do
      let b ← foldInputs Bit.xor c signals
      pure (b, c)
    | Function.Xnor => do
      let b ← foldInputs Bit.xor c signals
      pure (b.not, c)
    | Function.DffPosEdge => do
      let i0 ← c.input_connections[0]?
      let i1 ← c.input_connections[1]?
      let clock ← readSignal signals i0
      let data ← readSignal signals i1
      let out := if clock = Bit.one ∧ c.state.2 = Bit.zero then data else c.state.1
      pure (out, { c with state := (out, clock) }) : Option (Bit × Cell))
  let signals1 ← setSignalValue signals c.output_connection out
  pure (c1, signals1)

/-- `Cell::reset` (src/cell.rs, lines 213-217): only a DFF has state to
clear. -/
def Cell.reset (c : Cell) : Cell :=
  if c.function = Function.DffPosEdge then { c with state := (Bit.zero, Bit.zero) } else c

/-- C3: a DFF_POSEDGE cell reads `clock = input[0]` and `data = input[1]`
from the signal array, writes `data` to its output signal exactly when
`clock = 1` and the stored `last_clock = 0` and otherwise writes the stored
`last_Q`; afterwards its state is `(output, clock)`.  `reset` clears a DFF's
state to `(0, 0)` and leaves every other cell unchanged. -/
theorem C3_dff_eval_and_reset (c : Cell) (signals : List Signal) (i0 i1 : Nat)
    (sc sd so : Signal)
    (hf : c.function = Function.DffPosEdge)
    (hi0 : c.input_connections[0]? = some i0)
    (hi1 : c.input_connections[1]? = some i1)
    (hsc : signals[i0]? = some sc)
    (hsd : signals[i1]? = some sd)
    (hso : signals[c.output_connection]? = some so) :
    (c.eval signals = some
      ({ c with state :=
          ((if sc.get_value = Bit.one ∧ c.state.2 = Bit.zero then sd.get_value else c.state.1),
            sc.get_value) },
        signals.set c.output_connection
          (so.set_value
            (if sc.get_value = Bit.one ∧ c.state.2 = Bit.zero then sd.get_value else c.state.1))))
    ∧ (∀ c' : Cell, c'.function = Function.DffPosEdge →
        c'.reset = { c' with state := (Bit.zero, Bit.zero) })
    ∧ (∀ c' : Cell, c'.function ≠ Function.DffPosEdge → c'.reset = c') := by
  refine ⟨?_, ?_, ?_⟩
  · simp [Cell.eval, readSignal, setSignalValue, hf, hi0, hi1, hsc, hsd, hso]
  · intro c' hc'
    unfold Cell.reset
    rw [if_pos hc']
  · intro c' hc'
    unfold Cell.reset
    rw [if_neg hc']

/-- Witness for C3: a DFF with a rising clock edge latches the data input. -/
theorem C3_witness :
    (Cell.mk "dff" Function.DffPosEdge (Bit.zero, Bit.zero) 2 [0, 1, 0, 0, 0, 0, 0, 0] 2).eval
      [Signal.Net ⟨"clk", 0, Bit.one, 0, 0⟩, Signal.Net ⟨"d", 1, Bit.one, 0, 0⟩,
        Signal.Net ⟨"q", 2, Bit.zero, 0, 0⟩]
    = some
      (Cell.mk "dff" Function.DffPosEdge (Bit.one, Bit.one) 2 [0, 1, 0, 0, 0, 0, 0, 0] 2,
        [Signal.Net ⟨"clk", 0, Bit.one, 0, 0⟩, Signal.Net ⟨"d", 1, Bit.one, 0, 0⟩,
          Signal.Net ⟨"q", 2, Bit.one, 1, 0⟩]) := by
  have h := (C3_dff_eval_and_reset
    (Cell.mk "dff" Function.DffPosEdge (Bit.zero, Bit.zero) 2 [0, 1, 0, 0, 0, 0, 0, 0] 2)
    [Signal.Net ⟨"clk", 0, Bit.one, 0, 0⟩, Signal.Net ⟨"d", 1, Bit.one, 0, 0⟩,
      Signal.Net ⟨"q", 2, Bit.zero, 0, 0⟩]
    0 1 (Signal.Net ⟨"clk", 0, Bit.one, 0, 0⟩) (Signal.Net ⟨"d", 1, Bit.one, 0, 0⟩)
    (Signal.Net ⟨"q", 2, Bit.zero, 0, 0⟩)
    rfl rfl rfl rfl rfl rfl).1
  rw [h]
  rfl

/-! ### Ports (src/module/port.rs) -/

/-- Direction of a port (`enum PortDirection`). -/
inductive PortDirection where
  | Input
  | Output
deriving DecidableEq

/-- Errors raised by port operations (`enum PortError`).  The `Shape` payload
carries the requested and actual shapes. -/
inductive PortError where
  | Direction
  | Conversion
  | Shape (requested actual : Nat × Nat)
deriving DecidableEq

/-- A named ordered bundle of signal indices at a module boundary
(`struct Port`). -/
structure Port where
  signal_idx_list : List Nat
  shape : Nat × Nat
  direction : PortDirection
  signed : Bool
deriving DecidableEq

/-- The printed form of a BitVec (`impl Display for BitVec`): most
significant bit leftmost. -/
def BitVec.toString (bv : BitVec) : String :=
  String.mk (bv.bits.reverse.map Bit.toChar)

/-- `Port::get_bits`: read the signal values at the port's indices, in order,
into a BitVec.  An out-of-range index panics (`none`). -/
def Port.get_bits (p : Port) (signals : List Signal) : Option BitVec :=
  (p.signal_idx_list.mapM fun idx => (signals[idx]?).map Signal.get_value).map BitVec.mk

/-- Write the listed (index, bit) pairs in order through
`Signal::set_value`. -/
def writeBits (signals : List Signal) : List (Nat × Bit) → Option (List Signal)
  | [] => some signals
  | (idx, b) :: rest =>
    match setSignalValue signals idx b with
    | none => none
    | some signals1 => writeBits signals1 rest

/-- `Port::set_bits` (src/module/port.rs, lines 67-84): rejected with
`Direction` if the port is an output; otherwise the loop enumerates
`vals.bits`, stops after `min(vals.bits.len(), signal_idx_list.len())`
entries (the `take(stop_idx.clamp(0, len))`), and writes bit `i` to
`signals[signal_idx_list[i]]` — exactly the pairs of
`signal_idx_list.zip vals.bits`. -/
def Port.set_bits (p : Port) (vals : BitVec) (signals : List Signal) :
    Option (Except PortError (List Signal)) :=
  if p.direction = PortDirection.Output then
    some (Except.error PortError.Direction)
  else
    (writeBits signals (p.signal_idx_list.zip vals.bits)).map Except.ok

/-- `Port::get_int`: convert the port bits with `BitVec::to_int` (which
panics on an empty port or a port wider than `T`). -/
def Port.get_int (T : IntTy) (p : Port) (signals : List Signal) : Option Int := do
  let bv ← p.get_bits signals
  bits_to_int T bv.bits

/-- `Port::get_int_vec`: chunk the port bits by `shape[1]`. -/
def Port.get_int_vec (T : IntTy) (p : Port) (signals : List Signal) : Option (List Int) := do
  let bv ← p.get_bits signals
  bits_to_ints T bv.bits p.shape.2

/-- `Port::get_string`. -/
def Port.get_string (p : Port) (signals : List Signal) : Option String :=
  (p.get_bits signals).map BitVec.toString

/-! ### Hardware modules (src/module/hardware_module.rs) -/

/-- Errors raised by module operations (`enum ModuleError`). -/
inductive ModuleError where
  | MissingPort (name : String)
  | Port (name : String) (err : PortError)
  | MissingSignal (name : String)
  | MissingSignalIndex (idx : Nat)
  | MissingModule (name : String)
deriving DecidableEq

/-- A hierarchical hardware module (`struct HardwareModule`).  A component is
either a cell (`Sum.inl`) or a child module (`Sum.inr`); the component list
is kept in evaluation order.  Field order follows the source — name, ports,
signals, signal_map, components, component_map, input_connections,
output_connections — and the two `BTreeMap`s are modelled as association
lists. -/
inductive HardwareModule where
  | mk (name : String) (ports : List (String × Port)) (signals : List Signal)
      (signal_map : List (String × Nat))
      (components : List (Cell ⊕ HardwareModule))
      (component_map : List (String × Nat))
      (input_connections : List (Nat × Nat))
      (output_connections : List (Nat × Nat))

/-- The `name` field. -/
def HardwareModule.name : HardwareModule → String
  | .mk n _ _ _ _ _ _ _ => n

/-- The `ports` field. -/
def HardwareModule.ports : HardwareModule → List (String × Port)
  | .mk _ ps _ _ _ _ _ _ => ps

/-- The `signals` field. -/
def HardwareModule.signals : HardwareModule → List Signal
  | .mk _ _ ss _ _ _ _ _ => ss

/-- The `signal_map` field. -/
def HardwareModule.signal_map : HardwareModule → List (String × Nat)
  | .mk _ _ _ sm _ _ _ _ => sm

/-- The `components` field. -/
def HardwareModule.components : HardwareModule → List (Cell ⊕ HardwareModule)
  | .mk _ _ _ _ cs _ _ _ => cs

/-- The `input_connections` field: `(parent signal, child signal)` pairs. -/
def HardwareModule.input_connections : HardwareModule → List (Nat × Nat)
  | .mk _ _ _ _ _ _ ics _ => ics

/-- The `output_connections` field: `(parent signal, child signal)` pairs. -/
def HardwareModule.output_connections : HardwareModule → List (Nat × Nat)
  | .mk _ _ _ _ _ _ _ ocs => ocs

/-- Replace the signal list, keeping every other field (the functional image
of an in-place write to `self.signals`). -/
def HardwareModule.withSignals : HardwareModule → List Signal → HardwareModule
  | .mk n ps _ sm cs cm ics ocs, ss => .mk n ps ss sm cs cm ics ocs

mutual

/-- Number of modules and cells in a module tree; a measure that ignores the
signal values, so it is invariant under evaluation. -/
def HardwareModule.msize : HardwareModule → Nat
  | .mk _ _ _ _ cs _ _ _ => 1 + csize cs

def csize : List (Cell ⊕ HardwareModule) → Nat
  | [] => 0
  | .inl _ :: rest => 1 + csize rest
  | .inr m :: rest => 1 + m.msize + csize rest

end

/-- `HardwareModule::get_signal_idx`. -/
def HardwareModule.get_signal_idx (m : HardwareModule) (nm : String) :
    Except ModuleError Nat :=
  match m.signal_map.lookup nm with
  | some idx => Except.ok idx
  | none => Except.error (ModuleError.MissingSignal nm)

/-- `HardwareModule::set_signal` (src/module/hardware_module.rs, lines
60-67): the guard rejects only `idx > len`, so `idx = len` reaches the
indexing `self.signals[idx]`, which panics (`none`). -/
def HardwareModule.set_signal (m : HardwareModule) (idx : Nat) (val : Bit) :
    Option (Except ModuleError HardwareModule) :=
  if idx > m.signals.length then
    some (Except.error (ModuleError.MissingSignalIndex idx))
  else
    match setSignalValue m.signals idx val with
    | none => none
    | some ss => some (Except.ok (m.withSignals ss))

mutual

/-- `HardwareModule::reset`: reset every owned signal, then recursively every
component. -/
def HardwareModule.reset : HardwareModule → HardwareModule
  | .mk n ps ss sm cs cm ics ocs =>
    .mk n ps (ss.map Signal.reset) sm (resetComponents cs) cm ics ocs

def resetComponents : List (Cell ⊕ HardwareModule) → List (Cell ⊕ HardwareModule)
  | [] => []
  | .inl c :: rest => .inl c.reset :: resetComponents rest
  | .inr m :: rest => .inr m.reset :: resetComponents rest

end

/-- The input-connection loop of `HardwareModule::eval`: for each
`(external, internal)` pair, read `parent[external]` and write it through
`child[internal].set_value`.  Out-of-range indices panic (`none`). -/
def propagateInputsConn (parent : List Signal) (child : List Signal) :
    List (Nat × Nat) → Option (List Signal)
  | [] => some child
  | (ext, int) :: rest =>
    match parent[ext]? with
    | none => none
    | some s =>
      match setSignalValue child int s.get_value with
      | none => none
      | some child1 => propagateInputsConn parent child1 rest

/-- The output-connection loop of `HardwareModule::eval`: for each
`(external, internal)` pair, read `child[internal]` and write it through
`parent[external].set_value`. -/
def propagateOutputsConn (child : List Signal) (parent : List Signal) :
    List (Nat × Nat) → Option (List Signal)
  | [] => some parent
  | (ext, int) :: rest =>
    match child[int]? with
    | none => none
    | some s =>
      match setSignalValue parent ext s.get_value with
      | none => none
      | some parent1 => propagateOutputsConn child parent1 rest

mutual

/-- `HardwareModule::eval` (src/module/hardware_module.rs, lines 110-131):
one pass over the components in order; each cell evaluates against the
module's signal array, and each child module gets its `input_connections`
propagated in, is evaluated recursively, and has its `output_connections`
propagated back out. -/
def HardwareModule.eval : HardwareModule → Option HardwareModule
  | .mk n ps ss sm cs cm ics ocs =>
    match evalComponents ss cs with
    | none => none
    | some (ss1, cs1) => some (.mk n ps ss1 sm cs1 cm ics ocs)
termination_by m => m.msize
decreasing_by
  simp only [csize, HardwareModule.msize]
  omega

def evalComponents (signals : List Signal) :
    List (Cell ⊕ HardwareModule) → Option (List Signal × List (Cell ⊕ HardwareModule))
  | [] => some (signals, [])
  | .inl cell :: rest =>
    match cell.eval signals with
    | none => none
    | some (cell1, signals1) =>
      match evalComponents signals1 rest with
      | none => none
      | some (ss2, rest1) => some (ss2, .inl cell1 :: rest1)
  | .inr (.mk cn cp css csm ccs ccm cics cocs) :: rest =>
    match propagateInputsConn signals css cics with
    | none => none
    | some css1 =>
      match HardwareModule.eval (.mk cn cp css1 csm ccs ccm cics cocs) with
      | none => none
      | some child1 =>
        match propagateOutputsConn child1.signals signals cocs with
        | none => none
        | some signals1 =>
          match evalComponents signals1 rest with
          | none => none
          | some (ss2, rest1) => some (ss2, .inr child1 :: rest1)
termination_by cs => csize cs
decreasing_by
  · simp only [csize]
    omega
  · simp only [csize, HardwareModule.msize]
    omega
  · simp only [csize, HardwareModule.msize]
    omega

end

/-- The signal loop of `HardwareModule::get_total_toggle_count`: skip every
signal whose net index appears as the child side of an input connection. -/
def sumSignalsToggle (childIdxs : List Nat) : List Signal → Nat
  | [] => 0
  | s :: rest =>
    (if childIdxs.contains s.get_index then 0 else s.get_total_toggle_count)
      + sumSignalsToggle childIdxs rest

mutual

/-- `HardwareModule::get_total_toggle_count` (src/module/hardware_module.rs,
lines 313-334): the non-excluded own signals plus, recursively, every child
module. -/
def HardwareModule.get_total_toggle_count : HardwareModule → Nat
  | .mk _ _ ss _ cs _ ics _ =>
    sumSignalsToggle (ics.map Prod.snd) ss + sumComponentsToggle cs

def sumComponentsToggle : List (Cell ⊕ HardwareModule) → Nat
  | [] => 0
  | .inl _ :: rest => sumComponentsToggle rest
  | .inr m :: rest => m.get_total_toggle_count + sumComponentsToggle rest

end

mutual

/-- `HardwareModule::search_module_total_toggle_count`
(src/module/hardware_module.rs, lines 336-353): if this module carries the
searched name return its own count, otherwise try each child module in
order, skipping those whose subtree reports an error. -/
def HardwareModule.search_module_total_toggle_count :
    HardwareModule → String → Except ModuleError Nat
  | m@(.mk mn _ _ _ cs _ _ _), nm =>
    if nm = mn then Except.ok m.get_total_toggle_count
    else searchComponentsToggle cs nm

def searchComponentsToggle :
    List (Cell ⊕ HardwareModule) → String → Except ModuleError Nat
  | [], nm => Except.error (ModuleError.MissingModule nm)
  | .inl _ :: rest, nm => searchComponentsToggle rest nm
  | .inr sub :: rest, nm =>
    match sub.search_module_total_toggle_count nm with
    | Except.ok count => Except.ok count
    | Except.error _ => searchComponentsToggle rest nm

end

/-- `HardwareModule::get_port_bits`. -/
def HardwareModule.get_port_bits (m : HardwareModule) (nm : String) :
    Option (Except ModuleError BitVec) :=
  match m.ports.lookup nm with
  | some port => (port.get_bits m.signals).map Except.ok
  | none => some (Except.error (ModuleError.MissingPort nm))

/-- `HardwareModule::set_port_bits`. -/
def HardwareModule.set_port_bits (m : HardwareModule) (nm : String) (vals : BitVec) :
    Option (Except ModuleError HardwareModule) :=
  match m.ports.lookup nm with
  | some port =>
    match port.set_bits vals m.signals with
    | none => none
    | some (Except.error e) => some (Except.error (ModuleError.Port nm e))
    | some (Except.ok ss) => some (Except.ok (m.withSignals ss))
  | none => some (Except.error (ModuleError.MissingPort nm))

/-- `HardwareModule::get_port_int`. -/
def HardwareModule.get_port_int (T : IntTy) (m : HardwareModule) (nm : String) :
    Option (Except ModuleError Int) :=
  match m.ports.lookup nm with
  | some port => (port.get_int T m.signals).map Except.ok
  | none => some (Except.error (ModuleError.MissingPort nm))

/-- `HardwareModule::get_port_int_vec`. -/
def HardwareModule.get_port_int_vec (T : IntTy) (m : HardwareModule) (nm : String) :
    Option (Except ModuleError (List Int)) :=
  match m.ports.lookup nm with
  | some port => (port.get_int_vec T m.signals).map Except.ok
  | none => some (Except.error (ModuleError.MissingPort nm))

/-- `HardwareModule::get_port_string`. -/
def HardwareModule.get_port_string (m : HardwareModule) (nm : String) :
    Option (Except ModuleError String) :=
  match m.ports.lookup nm with
  | some port => (port.get_string m.signals).map Except.ok
  | none => some (Except.error (ModuleError.MissingPort nm))

/-- C5, code bug, evaluated at the failing input.  On a module with an empty
signal list, `set_signal(0, 1)` passes the `idx > len` guard (`0 > 0` is
false) and then panics indexing `signals[0]` (`none`), where the claim and
the spec's stated intent (`idx >= len` is the correct bound) require
`MissingSignalIndex`; `set_signal(1, 1)` with `1 > 0` does return the error,
and an in-range index writes through the signal and succeeds. -/
theorem C5_set_signal_len_panic :
    HardwareModule.set_signal (HardwareModule.mk "top" [] [] [] [] [] [] []) 0 Bit.one = none
    ∧ HardwareModule.set_signal (HardwareModule.mk "top" [] [] [] [] [] [] []) 1 Bit.one
      = some (Except.error (ModuleError.MissingSignalIndex 1))
    ∧ HardwareModule.set_signal
        (HardwareModule.mk "top" [] [Signal.Net ⟨"a", 0, Bit.zero, 0, 0⟩] [] [] [] [] [])
        0 Bit.one
      = some (Except.ok
          (HardwareModule.mk "top" [] [Signal.Net ⟨"a", 0, Bit.one, 1, 0⟩] [] [] [] [] [])) := by
  refine ⟨rfl, rfl, rfl⟩

/-! ### Reset clears the whole subtree (C7) -/

/-- A signal in post-reset condition: constants are always in it, a net is
when its value and both counters are zero. -/
def Signal.isCleared : Signal → Bool
  | .Constant _ => true
  | .Net n =>
    n.value == Bit.zero && n.toggle_count_rising == 0 && n.toggle_count_falling == 0

mutual

/-- Checker for the C7 claim: every net in the subtree cleared and every DFF
state `(0, 0)`. -/
def fullyReset : HardwareModule → Bool
  | .mk _ _ ss _ cs _ _ _ => ss.all Signal.isCleared && componentsReset cs

def componentsReset : List (Cell ⊕ HardwareModule) → Bool
  | [] => true
  | .inl c :: rest =>
    (c.function != Function.DffPosEdge || c.state == (Bit.zero, Bit.zero))
      && componentsReset rest
  | .inr m :: rest => fullyReset m && componentsReset rest

end

/-- Pointwise: every constant of the first signal list is unchanged in the
second. -/
def constSigsPreserved : List Signal → List Signal → Bool
  | [], [] => true
  | Signal.Constant b :: rest, s1 :: rest1 =>
    (s1 == Signal.Constant b) && constSigsPreserved rest rest1
  | Signal.Net _ :: rest, _ :: rest1 => constSigsPreserved rest rest1
  | _, _ => false

mutual

/-- Checker for the C7 claim: every constant signal of the first module tree
is unchanged at the same position of the second. -/
def constsPreserved : HardwareModule → HardwareModule → Bool
  | .mk _ _ ss _ cs _ _ _, .mk _ _ ss1 _ cs1 _ _ _ =>
    constSigsPreserved ss ss1 && constCompsPreserved cs cs1

def constCompsPreserved :
    List (Cell ⊕ HardwareModule) → List (Cell ⊕ HardwareModule) → Bool
  | [], [] => true
  | .inl _ :: rest, .inl _ :: rest1 => constCompsPreserved rest rest1
  | .inr m :: rest, .inr m1 :: rest1 =>
    constsPreserved m m1 && constCompsPreserved rest rest1
  | _, _ => false

end

theorem isCleared_reset (s : Signal) : (s.reset).isCleared = true := by
  cases s <;> rfl

mutual

theorem fullyReset_reset (m : HardwareModule) : fullyReset m.reset = true := by
  match m with
  | .mk n ps ss sm cs cm ics ocs =>
    rw [HardwareModule.reset, fullyReset, Bool.and_eq_true]
    constructor
    · rw [List.all_map, List.all_eq_true]
      intro s _
      exact isCleared_reset s
    · exact componentsReset_resetComponents cs

theorem componentsReset_resetComponents (cs : List (Cell ⊕ HardwareModule)) :
    componentsReset (resetComponents cs) = true := by
  match cs with
  | [] => rfl
  | .inl c :: rest =>
    rw [resetComponents, componentsReset, Bool.and_eq_true]
    constructor
    · unfold Cell.reset
      by_cases hc : c.function = Function.DffPosEdge <;> simp [hc]
    · exact componentsReset_resetComponents rest
  | .inr m :: rest =>
    rw [resetComponents, componentsReset, Bool.and_eq_true]
    exact ⟨fullyReset_reset m, componentsReset_resetComponents rest⟩

end

theorem constSigsPreserved_reset (ss : List Signal) :
    constSigsPreserved ss (ss.map Signal.reset) = true := by
  induction ss with
  | nil => rfl
  | cons s rest ih =>
    cases s with
    | Constant b =>
      rw [List.map_cons]
      have hr : Signal.reset (Signal.Constant b) = Signal.Constant b := rfl
      rw [hr, constSigsPreserved, ih]
      simp
    | Net n =>
      rw [List.map_cons, constSigsPreserved]
      exact ih

mutual

theorem constsPreserved_reset (m : HardwareModule) : constsPreserved m m.reset = true := by
  match m with
  | .mk n ps ss sm cs cm ics ocs =>
    rw [HardwareModule.reset, constsPreserved, Bool.and_eq_true]
    exact ⟨constSigsPreserved_reset ss, constCompsPreserved_reset cs⟩

theorem constCompsPreserved_reset (cs : List (Cell ⊕ HardwareModule)) :
    constCompsPreserved cs (resetComponents cs) = true := by
  match cs with
  | [] => rfl
  | .inl c :: rest =>
    rw [resetComponents, constCompsPreserved]
    exact constCompsPreserved_reset rest
  | .inr m :: rest =>
    rw [resetComponents, constCompsPreserved, Bool.and_eq_true]
    exact ⟨constsPreserved_reset m, constCompsPreserved_reset rest⟩

end

theorem sumSignalsToggle_reset (idxs : List Nat) (ss : List Signal) :
    sumSignalsToggle idxs (ss.map Signal.reset) = 0 := by
  induction ss with
  | nil => rfl
  | cons s rest ih =>
    rw [List.map_cons, sumSignalsToggle, ih]
    have h : (s.reset).get_total_toggle_count = 0 := by
      cases s <;> rfl
    rw [h]
    simp

mutual

theorem toggle_count_reset (m : HardwareModule) :
    (m.reset).get_total_toggle_count = 0 := by
  match m with
  | .mk n ps ss sm cs cm ics ocs =>
    rw [HardwareModule.reset, HardwareModule.get_total_toggle_count,
      sumSignalsToggle_reset, componentsToggle_reset cs]

theorem componentsToggle_reset (cs : List (Cell ⊕ HardwareModule)) :
    sumComponentsToggle (resetComponents cs) = 0 := by
  match cs with
  | [] => rfl
  | .inl c :: rest =>
    rw [resetComponents, sumComponentsToggle]
    exact componentsToggle_reset rest
  | .inr m :: rest =>
    rw [resetComponents, sumComponentsToggle, toggle_count_reset m,
      componentsToggle_reset rest]

end

/-- C7: after `reset()`, every net anywhere in the module subtree has value 0
and both toggle counters 0 (hence the subtree total toggle count is 0), every
DFF_POSEDGE cell's state is `(0, 0)`, and every constant signal is
unchanged. -/
theorem C7_reset_clears_subtree : ∀ m : HardwareModule,
    fullyReset m.reset = true
    ∧ constsPreserved m m.reset = true
    ∧ (m.reset).get_total_toggle_count = 0 :=
  fun m => ⟨fullyReset_reset m, constsPreserved_reset m, toggle_count_reset m⟩

/-! ### Hierarchical toggle-count search (C9) -/

mutual

/-- Depth-first search for the first module of the given name (the module
itself first, then its children in order), mirroring the traversal order of
`search_module_total_toggle_count`. -/
def findModule : HardwareModule → String → Option HardwareModule
  | m@(.mk mn _ _ _ cs _ _ _), nm =>
    if nm = mn then some m else findModuleIn cs nm

def findModuleIn : List (Cell ⊕ HardwareModule) → String → Option HardwareModule
  | [], _ => none
  | .inl _ :: rest, nm => findModuleIn rest nm
  | .inr sub :: rest, nm =>
    match findModule sub nm with
    | some found => some found
    | none => findModuleIn rest nm

end

mutual

/-- The toggle sum stated by the specification: over the subtree, the total
toggle count of every signal whose net index is not the child side of an
`input_connections` entry of its owning module (constants contribute 0). -/
def subtreeToggleSpec : HardwareModule → Nat
  | .mk _ _ ss _ cs _ ics _ =>
    ((ss.filter fun s => !((ics.map Prod.snd).contains s.get_index)).map
        Signal.get_total_toggle_count).sum
      + componentsToggleSpec cs

def componentsToggleSpec : List (Cell ⊕ HardwareModule) → Nat
  | [] => 0
  | .inl _ :: rest => componentsToggleSpec rest
  | .inr m :: rest => subtreeToggleSpec m + componentsToggleSpec rest

end

theorem sumSignalsToggle_eq_spec (idxs : List Nat) (ss : List Signal) :
    sumSignalsToggle idxs ss
      = ((ss.filter fun s => !(idxs.contains s.get_index)).map
          Signal.get_total_toggle_count).sum := by
  induction ss with
  | nil => rfl
  | cons s rest ih =>
    rw [sumSignalsToggle, ih, List.filter_cons]
    by_cases hc : s.get_index ∈ idxs <;> simp [hc]

mutual

theorem toggle_count_eq_spec (m : HardwareModule) :
    m.get_total_toggle_count = subtreeToggleSpec m := by
  match m with
  | .mk n ps ss sm cs cm ics ocs =>
    rw [HardwareModule.get_total_toggle_count, subtreeToggleSpec,
      sumSignalsToggle_eq_spec, componentsToggle_eq_spec cs]

theorem componentsToggle_eq_spec (cs : List (Cell ⊕ HardwareModule)) :
    sumComponentsToggle cs = componentsToggleSpec cs := by
  match cs with
  | [] => rfl
  | .inl c :: rest =>
    rw [sumComponentsToggle, componentsToggleSpec, componentsToggle_eq_spec rest]
  | .inr m :: rest =>
    rw [sumComponentsToggle, componentsToggleSpec, toggle_count_eq_spec m,
      componentsToggle_eq_spec rest]

end

mutual

theorem searchToggle_eq_find (m : HardwareModule) (nm : String) :
    m.search_module_total_toggle_count nm
      = match findModule m nm with
        | some sub => Except.ok (subtreeToggleSpec sub)
        | none => Except.error (ModuleError.MissingModule nm) := by
  match m with
  | .mk mn ps ss sm cs cm ics ocs =>
    rw [HardwareModule.search_module_total_toggle_count, findModule]
    by_cases hn : nm = mn
    · rw [if_pos hn, if_pos hn, toggle_count_eq_spec]
    · rw [if_neg hn, if_neg hn]
      exact searchToggleIn_eq_find cs nm

theorem searchToggleIn_eq_find (cs : List (Cell ⊕ HardwareModule)) (nm : String) :
    searchComponentsToggle cs nm
      = match findModuleIn cs nm with
        | some sub => Except.ok (subtreeToggleSpec sub)
        | none => Except.error (ModuleError.MissingModule nm) := by
  match cs with
  | [] => rfl
  | .inl c :: rest =>
    rw [searchComponentsToggle, findModuleIn]
    exact searchToggleIn_eq_find rest nm
  | .inr sub :: rest =>
    rw [searchComponentsToggle, findModuleIn, searchToggle_eq_find sub nm]
    cases hf : findModule sub nm with
    | some found => rfl
    | none =>
      exact searchToggleIn_eq_find rest nm

end

/-- C9: `search_module_total_toggle_count(name)` returns, for the first
module named `name` in depth-first order, the sum over it and its descendants
of `total_toggle` of every net excluding the nets whose index is the child
side of an `input_connections` entry of their owning module; constants
contribute 0; if no module of that name exists the call fails with
`MissingModule(name)`. -/
theorem C9_search_total_toggle_count :
    (∀ (m : HardwareModule) (nm : String),
      m.search_module_total_toggle_count nm
        = match findModule m nm with
          | some sub => Except.ok (subtreeToggleSpec sub)
          | none => Except.error (ModuleError.MissingModule nm))
    ∧ (∀ b : Bit, (Signal.Constant b).get_total_toggle_count = 0) :=
  ⟨fun m nm => searchToggle_eq_find m nm, fun _ => rfl⟩

/-! ### The design facade (src/module/design.rs) -/

/-- A top-level module with optional clock and reset signal indices
(`struct Design`).  The `cell_library` field is not modelled: it is only
consulted by the area-reporting operations, which none of the modelled
operations touch. -/
structure Design where
  module : HardwareModule
  clock : Option Nat
  reset : Option Nat

/-- `Design::eval_clocked` (src/module/design.rs, lines 76-92): with no
clock bound, fail with `MissingSignal("clock")` before any evaluation;
otherwise three settle passes with the clock at its current value, then
drive the clock to 1 and evaluate, then drive it to 0 and evaluate.
`set_signal` errors propagate (`?`), and panics anywhere are `none`. -/
def Design.eval_clocked (d : Design) : Option (Except ModuleError Design) :=
  match d.clock with
  | none => some (Except.error (ModuleError.MissingSignal "clock"))
  | some clock =>
    match d.module.eval with
    | none => none
    | some m1 =>
      match m1.eval with
      | none => none
      | some m2 =>
        match m2.eval with
        | none => none
        | some m3 =>
          match m3.set_signal clock Bit.one with
          | none => none
          | some (Except.error e) => some (Except.error e)
          | some (Except.ok m4) =>
            match m4.eval with
            | none => none
            | some m5 =>
              match m5.set_signal clock Bit.zero with
              | none => none
              | some (Except.error e) => some (Except.error e)
              | some (Except.ok m6) =>
                match m6.eval with
                | none => none
                | some m7 => some (Except.ok { d with module := m7 })

/-- The rising toggle count of the net stored at a signal index. -/
def netRisingAt (m : HardwareModule) (idx : Nat) : Option Nat :=
  match m.signals[idx]? with
  | some (Signal.Net n) => some n.toggle_count_rising
  | _ => none

theorem eval_no_components (n : String) (ps : List (String × Port)) (ss : List Signal)
    (sm cm : List (String × Nat)) (ics ocs : List (Nat × Nat)) :
    (HardwareModule.mk n ps ss sm [] cm ics ocs).eval
      = some (HardwareModule.mk n ps ss sm [] cm ics ocs) := by
  simp [HardwareModule.eval, evalComponents]

theorem set_signal_in_range (m : HardwareModule) (c : Nat) (s : Signal) (val : Bit)
    (h : m.signals[c]? = some s) :
    m.set_signal c val
      = some (Except.ok (m.withSignals (m.signals.set c (s.set_value val)))) := by
  have hlt : c < m.signals.length := by
    by_contra hge
    rw [List.getElem?_eq_none (by omega)] at h
    exact Option.noConfusion h
  unfold HardwareModule.set_signal setSignalValue
  rw [if_neg (by omega), h]

/-- C2 counterexample module: a single clock net whose value is already 1,
and no components. -/
def c2CexDesign : Design :=
  ⟨HardwareModule.mk "top" [] [Signal.Net ⟨"clock", 0, Bit.one, 0, 0⟩] [("clock", 0)]
    [] [] [] [], some 0, none⟩

/-- C2 counterexample module with a buffer cell that drives the clock net
from a constant-one net: evaluation itself writes the clock. -/
def c2DriveDesign : Design :=
  ⟨HardwareModule.mk "top" []
    [Signal.Net ⟨"clock", 0, Bit.zero, 0, 0⟩, Signal.Net ⟨"one", 1, Bit.one, 0, 0⟩]
    [("clock", 0)]
    [Sum.inl (Cell.mk "buf" Function.Buf (Bit.zero, Bit.zero) 1 [1, 0, 0, 0, 0, 0, 0, 0] 0)]
    [] [] [], some 0, none⟩

/-- C2 counterexample, two failing inputs.  First: on a design whose bound
clock net currently holds 1, `eval_clocked` succeeds but produces no rising
edge at all — the rising toggle count stays 0 instead of increasing by
exactly 1 (driving the clock to 1 is a same-value no-op; only the falling
edge is counted).  Second: on a design whose clock net holds 0 but is driven
by a component (a buffer from a constant-one net), one call produces two
rising edges — the first settle pass drives the clock to 1 and the final
evaluation drives it back to 1 after the facade lowered it. -/
theorem C2_counterexample :
    (netRisingAt c2CexDesign.module 0 = some 0
      ∧ (match c2CexDesign.eval_clocked with
          | some (Except.ok d1) => netRisingAt d1.module 0
          | _ => none) = some 0)
    ∧ (netRisingAt c2DriveDesign.module 0 = some 0
      ∧ (match c2DriveDesign.eval_clocked with
          | some (Except.ok d1) => netRisingAt d1.module 0
          | _ => none) = some 2) := by
  refine ⟨⟨rfl, ?_⟩, rfl, ?_⟩
  · have he : c2CexDesign.eval_clocked
        = some (Except.ok ⟨HardwareModule.mk "top" []
            [Signal.Net ⟨"clock", 0, Bit.zero, 0, 1⟩] [("clock", 0)] [] [] [] [],
            some 0, none⟩) := by
      have h1 := eval_no_components "top" [] [Signal.Net ⟨"clock", 0, Bit.one, 0, 0⟩]
        [("clock", 0)] [] [] []
      have h2 := eval_no_components "top" [] [Signal.Net ⟨"clock", 0, Bit.zero, 0, 1⟩]
        [("clock", 0)] [] [] []
      unfold Design.eval_clocked c2CexDesign
      simp [h1, h2, HardwareModule.set_signal, setSignalValue, HardwareModule.withSignals,
        HardwareModule.signals, Signal.set_value]
    rw [he]
    rfl
  · have e1 : (HardwareModule.mk "top" []
        [Signal.Net ⟨"clock", 0, Bit.zero, 0, 0⟩, Signal.Net ⟨"one", 1, Bit.one, 0, 0⟩]
        [("clock", 0)]
        [Sum.inl (Cell.mk "buf" Function.Buf (Bit.zero, Bit.zero) 1
          [1, 0, 0, 0, 0, 0, 0, 0] 0)] [] [] []).eval
      = some (HardwareModule.mk "top" []
        [Signal.Net ⟨"clock", 0, Bit.one, 1, 0⟩, Signal.Net ⟨"one", 1, Bit.one, 0, 0⟩]
        [("clock", 0)]
        [Sum.inl (Cell.mk "buf" Function.Buf (Bit.zero, Bit.zero) 1
          [1, 0, 0, 0, 0, 0, 0, 0] 0)] [] [] []) := by
      simp [HardwareModule.eval, evalComponents, Cell.eval, readSignal, setSignalValue,
        Signal.set_value, Signal.get_value]
    have e2 : (HardwareModule.mk "top" []
        [Signal.Net ⟨"clock", 0, Bit.one, 1, 0⟩, Signal.Net ⟨"one", 1, Bit.one, 0, 0⟩]
        [("clock", 0)]
        [Sum.inl (Cell.mk "buf" Function.Buf (Bit.zero, Bit.zero) 1
          [1, 0, 0, 0, 0, 0, 0, 0] 0)] [] [] []).eval
      = some (HardwareModule.mk "top" []
        [Signal.Net ⟨"clock", 0, Bit.one, 1, 0⟩, Signal.Net ⟨"one", 1, Bit.one, 0, 0⟩]
        [("clock", 0)]
        [Sum.inl (Cell.mk "buf" Function.Buf (Bit.zero, Bit.zero) 1
          [1, 0, 0, 0, 0, 0, 0, 0] 0)] [] [] []) := by
      simp [HardwareModule.eval, evalComponents, Cell.eval, readSignal, setSignalValue,
        Signal.set_value, Signal.get_value]
    have e3 : (HardwareModule.mk "top" []
        [Signal.Net ⟨"clock", 0, Bit.zero, 1, 1⟩, Signal.Net ⟨"one", 1, Bit.one, 0, 0⟩]
        [("clock", 0)]
        [Sum.inl (Cell.mk "buf" Function.Buf (Bit.zero, Bit.zero) 1
          [1, 0, 0, 0, 0, 0, 0, 0] 0)] [] [] []).eval
      = some (HardwareModule.mk "top" []
        [Signal.Net ⟨"clock", 0, Bit.one, 2, 1⟩, Signal.Net ⟨"one", 1, Bit.one, 0, 0⟩]
        [("clock", 0)]
        [Sum.inl (Cell.mk "buf" Function.Buf (Bit.zero, Bit.zero) 1
          [1, 0, 0, 0, 0, 0, 0, 0] 0)] [] [] []) := by
      simp [HardwareModule.eval, evalComponents, Cell.eval, readSignal, setSignalValue,
        Signal.set_value, Signal.get_value]
    have he : c2DriveDesign.eval_clocked
        = some (Except.ok ⟨HardwareModule.mk "top" []
            [Signal.Net ⟨"clock", 0, Bit.one, 2, 1⟩, Signal.Net ⟨"one", 1, Bit.one, 0, 0⟩]
            [("clock", 0)]
            [Sum.inl (Cell.mk "buf" Function.Buf (Bit.zero, Bit.zero) 1
              [1, 0, 0, 0, 0, 0, 0, 0] 0)] [] [] [], some 0, none⟩) := by
      unfold Design.eval_clocked c2DriveDesign
      simp [e1, e2, e3, HardwareModule.set_signal, setSignalValue,
        HardwareModule.withSignals, HardwareModule.signals, Signal.set_value]
    rw [he]
    rfl

/-- C2 (amended): `eval_clocked` with no clock bound fails
`MissingSignal("clock")` without evaluating; with a clock bound to a net
holding 0 it performs three settle evaluations, drives the clock to 1 and
evaluates, then drives it to 0 and evaluates, and — provided none of the
five evaluation passes writes the clock net (each pass leaves the clock
net's signal entry unchanged) — the call produces exactly one rising edge:
the clock net's rising toggle count increases by exactly 1 (and its falling
count by 1, the value returning to 0).  The hypotheses name the modules
produced by the five evaluation passes and state, for each pass, that it
succeeded and left the clock signal entry as it was — any design whose
components do not drive the clock net satisfies them. -/
theorem C2_eval_clocked (d : Design) (c : Nat) (n0 : Net)
    (m1 m2 m3 m5 m7 : HardwareModule)
    (hc : d.clock = some c)
    (h0 : d.module.signals[c]? = some (Signal.Net n0))
    (hv0 : n0.value = Bit.zero)
    (he1 : d.module.eval = some m1)
    (hp1 : m1.signals[c]? = d.module.signals[c]?)
    (he2 : m1.eval = some m2)
    (hp2 : m2.signals[c]? = m1.signals[c]?)
    (he3 : m2.eval = some m3)
    (hp3 : m3.signals[c]? = m2.signals[c]?)
    (he4 : (m3.withSignals (m3.signals.set c (Signal.Net (Net.mk n0.name n0.index Bit.one
        (n0.toggle_count_rising + 1) n0.toggle_count_falling)))).eval = some m5)
    (hp4 : m5.signals[c]? = some (Signal.Net (Net.mk n0.name n0.index Bit.one
        (n0.toggle_count_rising + 1) n0.toggle_count_falling)))
    (he5 : (m5.withSignals (m5.signals.set c (Signal.Net (Net.mk n0.name n0.index Bit.zero
        (n0.toggle_count_rising + 1) (n0.toggle_count_falling + 1))))).eval = some m7)
    (hp5 : m7.signals[c]? = some (Signal.Net (Net.mk n0.name n0.index Bit.zero
        (n0.toggle_count_rising + 1) (n0.toggle_count_falling + 1)))) :
    (d.eval_clocked = some (Except.ok (Design.mk m7 d.clock d.reset)))
    ∧ m7.signals[c]? = some (Signal.Net (Net.mk n0.name n0.index Bit.zero
        (n0.toggle_count_rising + 1) (n0.toggle_count_falling + 1)))
    ∧ (∀ d1 : Design, d1.clock = none →
        d1.eval_clocked = some (Except.error (ModuleError.MissingSignal "clock"))) := by
  refine ⟨?_, hp5, ?_⟩
  · obtain ⟨nm0, ni, nv, nr, nf⟩ := n0
    have hv : nv = Bit.zero := hv0
    subst hv
    dsimp only at he4 hp4 he5
    have h3entry : m3.signals[c]? = some (Signal.Net (Net.mk nm0 ni Bit.zero nr nf)) := by
      rw [hp3, hp2, hp1]
      exact h0
    have hs1 : m3.set_signal c Bit.one = some (Except.ok (m3.withSignals (m3.signals.set c
        (Signal.Net (Net.mk nm0 ni Bit.one (nr + 1) nf))))) :=
      set_signal_in_range m3 c _ Bit.one h3entry
    have hs2 : m5.set_signal c Bit.zero = some (Except.ok (m5.withSignals (m5.signals.set c
        (Signal.Net (Net.mk nm0 ni Bit.zero (nr + 1) (nf + 1)))))) :=
      set_signal_in_range m5 c _ Bit.zero hp4
    unfold Design.eval_clocked
    simp only [hc, he1, he2, he3, hs1, he4, hs2, he5]
  · intro d1 hd1
    unfold Design.eval_clocked
    rw [hd1]

/-- A module with a clock net and a buffer cell between two non-clock nets:
evaluation does real work but never writes the clock, so the pulse
hypotheses of the amended C2 hold. -/
def c2BufModule (cv : Bit) (cr cf : Nat) (bval : Bit) (br : Nat) : HardwareModule :=
  HardwareModule.mk "top" []
    [Signal.Net ⟨"clock", 0, cv, cr, cf⟩, Signal.Net ⟨"a", 1, Bit.one, 0, 0⟩,
      Signal.Net ⟨"b", 2, bval, br, 0⟩]
    [("clock", 0)]
    [Sum.inl (Cell.mk "buf" Function.Buf (Bit.zero, Bit.zero) 1 [1, 0, 0, 0, 0, 0, 0, 0] 2)]
    [] [] []

/-- Witness for the amended C2: on a design containing a buffer cell that
does not touch the clock net, one clocked evaluation bumps the clock net's
rising and falling counts each by exactly 1; a design without a bound clock
fails `MissingSignal("clock")`. -/
theorem C2_witness :
    (Design.eval_clocked ⟨c2BufModule Bit.zero 0 0 Bit.zero 0, some 0, none⟩
      = some (Except.ok ⟨c2BufModule Bit.zero 1 1 Bit.one 1, some 0, none⟩))
    ∧ netRisingAt (c2BufModule Bit.zero 0 0 Bit.zero 0) 0 = some 0
    ∧ netRisingAt (c2BufModule Bit.zero 1 1 Bit.one 1) 0 = some 1
    ∧ Design.eval_clocked ⟨HardwareModule.mk "top" [] [] [] [] [] [] [], none, none⟩
      = some (Except.error (ModuleError.MissingSignal "clock")) := by
  have hb1 : (c2BufModule Bit.zero 0 0 Bit.zero 0).eval
      = some (c2BufModule Bit.zero 0 0 Bit.one 1) := by
    simp [c2BufModule, HardwareModule.eval, evalComponents, Cell.eval, readSignal,
      setSignalValue, Signal.set_value, Signal.get_value]
  have hb2 : (c2BufModule Bit.zero 0 0 Bit.one 1).eval
      = some (c2BufModule Bit.zero 0 0 Bit.one 1) := by
    simp [c2BufModule, HardwareModule.eval, evalComponents, Cell.eval, readSignal,
      setSignalValue, Signal.set_value, Signal.get_value]
  have hb3 : (c2BufModule Bit.one 1 0 Bit.one 1).eval
      = some (c2BufModule Bit.one 1 0 Bit.one 1) := by
    simp [c2BufModule, HardwareModule.eval, evalComponents, Cell.eval, readSignal,
      setSignalValue, Signal.set_value, Signal.get_value]
  have hb4 : (c2BufModule Bit.zero 1 1 Bit.one 1).eval
      = some (c2BufModule Bit.zero 1 1 Bit.one 1) := by
    simp [c2BufModule, HardwareModule.eval, evalComponents, Cell.eval, readSignal,
      setSignalValue, Signal.set_value, Signal.get_value]
  have h := C2_eval_clocked ⟨c2BufModule Bit.zero 0 0 Bit.zero 0, some 0, none⟩ 0
    ⟨"clock", 0, Bit.zero, 0, 0⟩
    (c2BufModule Bit.zero 0 0 Bit.one 1) (c2BufModule Bit.zero 0 0 Bit.one 1)
    (c2BufModule Bit.zero 0 0 Bit.one 1) (c2BufModule Bit.one 1 0 Bit.one 1)
    (c2BufModule Bit.zero 1 1 Bit.one 1)
    rfl rfl rfl hb1 rfl hb2 rfl hb2 rfl hb3 rfl hb4 rfl
  exact ⟨h.1, rfl, rfl, h.2.2 _ rfl⟩

/-! ### Port direction discipline (C6) -/

theorem writeBits_some (signals : List Signal) (prs : List (Nat × Bit))
    (h : ∀ pr ∈ prs, pr.1 < signals.length) :
    ∃ ss1, writeBits signals prs = some ss1 ∧ ss1.length = signals.length := by
  induction prs generalizing signals with
  | nil => exact ⟨signals, rfl, rfl⟩
  | cons pr rest ih =>
    obtain ⟨idx, b⟩ := pr
    have hidx : idx < signals.length := h (idx, b) (by simp)
    have hs : signals[idx]? = some signals[idx] := List.getElem?_eq_getElem hidx
    rw [writeBits]
    unfold setSignalValue
    rw [hs]
    have hlen : (signals.set idx (signals[idx].set_value b)).length = signals.length := by
      simp
    obtain ⟨ss1, h1, h2⟩ := ih (signals.set idx (signals[idx].set_value b)) (by
      intro pr hm
      rw [hlen]
      exact h pr (List.mem_cons_of_mem _ hm))
    exact ⟨ss1, h1, by rw [h2, hlen]⟩

/-- C6: writing bits to an Output port always fails with the `Direction`
error (before touching any signal, so values and toggle counters are
unchanged); on an Input port `set_bits` writes exactly the first
`min(len(bv), port_width)` bits, in order, through the signal update rule and
succeeds; and none of `get_port_bits`, `get_port_int`, `get_port_int_vec`,
`get_port_string` can fail with a `Direction` error — their only error is
`MissingPort`. -/
theorem C6_port_direction (m : HardwareModule) (nm : String) (p : Port) (bv : BitVec)
    (signals : List Signal) (T : IntTy) :
    (m.ports.lookup nm = some p → p.direction = PortDirection.Output →
      m.set_port_bits nm bv = some (Except.error (ModuleError.Port nm PortError.Direction)))
    ∧ (p.direction = PortDirection.Input →
        (∀ pr ∈ p.signal_idx_list.zip bv.bits, pr.1 < signals.length) →
        ∃ ss1, p.set_bits bv signals = some (Except.ok ss1)
          ∧ writeBits signals (p.signal_idx_list.zip bv.bits) = some ss1
          ∧ ss1.length = signals.length)
    ∧ ((p.signal_idx_list.zip bv.bits).length
        = min p.signal_idx_list.length bv.bits.length)
    ∧ (∀ e, m.get_port_bits nm = some (Except.error e) → e = ModuleError.MissingPort nm)
    ∧ (∀ e, m.get_port_int T nm = some (Except.error e) → e = ModuleError.MissingPort nm)
    ∧ (∀ e, m.get_port_int_vec T nm = some (Except.error e)
        → e = ModuleError.MissingPort nm)
    ∧ (∀ e, m.get_port_string nm = some (Except.error e)
        → e = ModuleError.MissingPort nm) := by
  refine ⟨?_, ?_, List.length_zip _ _, ?_, ?_, ?_, ?_⟩
  · intro hlook hdir
    simp [HardwareModule.set_port_bits, Port.set_bits, hlook, hdir]
  · intro hdir hin
    obtain ⟨ss1, h1, h2⟩ := writeBits_some signals (p.signal_idx_list.zip bv.bits) hin
    refine ⟨ss1, ?_, h1, h2⟩
    unfold Port.set_bits
    rw [if_neg (by rw [hdir]; intro hcon; exact PortDirection.noConfusion hcon), h1]
    rfl
  · intro e he
    cases hlook : m.ports.lookup nm with
    | some port =>
      cases hg : port.get_bits m.signals with
      | none => simp [HardwareModule.get_port_bits, hlook, hg] at he
      | some x => simp [HardwareModule.get_port_bits, hlook, hg] at he
    | none =>
      simp [HardwareModule.get_port_bits, hlook] at he
      exact he.symm
  · intro e he
    cases hlook : m.ports.lookup nm with
    | some port =>
      cases hg : port.get_int T m.signals with
      | none => simp [HardwareModule.get_port_int, hlook, hg] at he
      | some x => simp [HardwareModule.get_port_int, hlook, hg] at he
    | none =>
      simp [HardwareModule.get_port_int, hlook] at he
      exact he.symm
  · intro e he
    cases hlook : m.ports.lookup nm with
    | some port =>
      cases hg : port.get_int_vec T m.signals with
      | none => simp [HardwareModule.get_port_int_vec, hlook, hg] at he
      | some x => simp [HardwareModule.get_port_int_vec, hlook, hg] at he
    | none =>
      simp [HardwareModule.get_port_int_vec, hlook] at he
      exact he.symm
  · intro e he
    cases hlook : m.ports.lookup nm with
    | some port =>
      cases hg : port.get_string m.signals with
      | none => simp [HardwareModule.get_port_string, hlook, hg] at he
      | some x => simp [HardwareModule.get_port_string, hlook, hg] at he
    | none =>
      simp [HardwareModule.get_port_string, hlook] at he
      exact he.symm

/-- A two-port module used to exercise the port direction theorem. -/
def c6TestModule : HardwareModule :=
  HardwareModule.mk "top"
    [("i", ⟨[0, 1], (1, 2), PortDirection.Input, false⟩),
      ("o", ⟨[2], (1, 1), PortDirection.Output, false⟩)]
    [Signal.Net ⟨"a", 0, Bit.zero, 0, 0⟩, Signal.Net ⟨"b", 1, Bit.zero, 0, 0⟩,
      Signal.Net ⟨"c", 2, Bit.zero, 0, 0⟩]
    [] [] [] [] []

/-- Witness for C6 on a concrete module with an Input and an Output port. -/
theorem C6_witness :
    (c6TestModule.set_port_bits "o" ⟨[Bit.one]⟩
      = some (Except.error (ModuleError.Port "o" PortError.Direction)))
    ∧ (∃ ss1, Port.set_bits ⟨[0, 1], (1, 2), PortDirection.Input, false⟩ ⟨[Bit.one, Bit.one]⟩
          c6TestModule.signals = some (Except.ok ss1)
        ∧ writeBits c6TestModule.signals
            (([0, 1] : List Nat).zip [Bit.one, Bit.one]) = some ss1
        ∧ ss1.length = c6TestModule.signals.length)
    ∧ ModuleError.MissingPort "missing" = ModuleError.MissingPort "missing" :=
  ⟨(C6_port_direction c6TestModule "o" ⟨[2], (1, 1), PortDirection.Output, false⟩
      ⟨[Bit.one]⟩ [] ⟨8, false⟩).1 rfl rfl,
    (C6_port_direction c6TestModule "i" ⟨[0, 1], (1, 2), PortDirection.Input, false⟩
      ⟨[Bit.one, Bit.one]⟩ c6TestModule.signals ⟨8, false⟩).2.1 rfl (by decide),
    (C6_port_direction c6TestModule "missing" ⟨[], (0, 0), PortDirection.Input, false⟩
      ⟨[]⟩ [] ⟨8, false⟩).2.2.2.1 (ModuleError.MissingPort "missing") rfl⟩

end Arbolta
